import Mathlib

/-!
Verification of the trackup block-device backup tool against its
natural-language specification.  The Rust sources are shallowly embedded:
machine integers become Nat (with explicit bounds or reductions modulo
words where overflow matters), Vec indexing that can panic becomes either
an Except value or a getD access used only under in-bounds hypotheses, and
each Rust function keeps its source name.
-/

namespace Trackup

/-- Reserved sentinel used by the storage index code, std::u64::MAX. -/
def U64_MAX : Nat := 2 ^ 64 - 1

/-- Value used for absent layers in the shared index, std::usize::MAX. -/
def USIZE_MAX : Nat := 2 ^ 64 - 1

/-- A chunk as in src/chunk.rs: a byte offset and the raw data bytes. -/
structure ChunkM where
  offset : Nat
  data : List Nat
deriving DecidableEq

/-! ## Storage policy and checksum diffs (control.rs, checksums.rs) -/

/-- Storage policies, from the control module (constructors as matched in
backup.rs). -/
inductive StoragePolicy
  | Full
  | Incremental
  | Volatile
deriving DecidableEq

/-- Result of recording a chunk in a checksum ledger (checksums.rs). -/
inductive ChecksumDiff
  | Unchanged
  | Touched
  | Replaced
deriving DecidableEq

/-- Provenance of a ledger slot (checksums.rs). -/
inductive ChunkSource
  | Absent
  | Historic
  | Current
deriving DecidableEq

/-! ## Backup driver write gates (backup.rs) -/

/-- The three write-gate booleans computed by Backup::new
(backup.rs lines 129-151). -/
structure WriteGates where
  write_when_checksum_unchanged : Bool
  write_when_checksum_touched : Bool
  write_when_checksum_replaced : Bool
deriving DecidableEq

/-- Gate computation from Backup::new: the match on the storage policy.
Incremental without trustable checksums is the construction error at
backup.rs line 140. -/
def backupWriteGates : StoragePolicy → Bool → Except Unit WriteGates
  | StoragePolicy.Full, trust => Except.ok ⟨!trust, true, true⟩
  | StoragePolicy.Incremental, trust =>
      if !trust then Except.error () else Except.ok ⟨false, false, true⟩
  | StoragePolicy.Volatile, _ => Except.ok ⟨false, false, false⟩

/-- The should_write dispatch in Backup::process_chunk (backup.rs 165-169). -/
def shouldWrite (g : WriteGates) : ChecksumDiff → Bool
  | ChecksumDiff.Unchanged => g.write_when_checksum_unchanged
  | ChecksumDiff.Touched => g.write_when_checksum_touched
  | ChecksumDiff.Replaced => g.write_when_checksum_replaced

/-- Observable state of one Backup while processing chunks: the checksum
ledger state, the chunks dispatched to storage (in order), and the gates. -/
structure BackupRun (σ : Type) where
  checksums : σ
  written : List ChunkM
  gates : WriteGates

/-- Backup::process_chunk (backup.rs 163-174): update the ledger first,
then dispatch the chunk to storage when the gate for the returned diff is
set.  The ledger is abstract, as in the Rust trait object. -/
def process_chunk {σ : Type} (record_chunk : σ → ChunkM → σ × ChecksumDiff)
    (b : BackupRun σ) (c : ChunkM) : BackupRun σ :=
  let r := record_chunk b.checksums c
  let should_write := shouldWrite b.gates r.2
  { b with checksums := r.1
           written := if should_write then b.written ++ [c] else b.written }

/-- The write condition exactly as claim C2 words it, per policy. -/
def claimShouldWrite : StoragePolicy → Bool → ChecksumDiff → Bool
  | StoragePolicy.Incremental, _, d =>
      match d with
      | ChecksumDiff.Replaced => true
      | _ => false
  | StoragePolicy.Full, true, d =>
      match d with
      | ChecksumDiff.Touched => true
      | ChecksumDiff.Replaced => true
      | _ => false
  | StoragePolicy.Full, false, _ => true
  | StoragePolicy.Volatile, _, _ => false

/-! ## Shared index (storage/shared_index.rs) -/

/-- The shared chunk index state (SharedIndexInternal).  Absent chunks hold
USIZE_MAX in chunk_layers and U64_MAX in chunk_offsets. -/
structure SharedIndexInternal where
  layer_count : Nat
  hole_count : Nat
  chunk_layers : List Nat
  chunk_offsets : List Nat
deriving DecidableEq

/-- SharedIndex::new. -/
def SharedIndex.new (chunk_count : Nat) : SharedIndexInternal :=
  ⟨0, chunk_count, List.replicate chunk_count USIZE_MAX,
    List.replicate chunk_count U64_MAX⟩

/-- SharedIndexHandle::replace for the handle of a given layer
(shared_index.rs 80-92).  The reserved offset U64_MAX panics, modelled as
the error value. -/
def SharedIndexHandle.replace (layer : Nat) (st : SharedIndexInternal)
    (chunk_number offset : Nat) : Except Unit SharedIndexInternal :=
  if offset = U64_MAX then Except.error ()
  else Except.ok (
    if layer ≤ st.chunk_layers.getD chunk_number 0 then
      { st with
        hole_count :=
          if st.chunk_layers.getD chunk_number 0 = USIZE_MAX then
            st.hole_count - 1
          else st.hole_count
        chunk_layers := st.chunk_layers.set chunk_number layer
        chunk_offsets := st.chunk_offsets.set chunk_number offset }
    else st)

/-- SharedIndexHandle::lookup (shared_index.rs 103-113).  A miss on a
non-top layer panics, modelled as the error value. -/
def SharedIndexHandle.lookup (layer : Nat) (st : SharedIndexInternal)
    (chunk_number : Nat) : Except Unit (Option Nat) :=
  if st.chunk_layers.getD chunk_number 0 = layer then
    Except.ok (some (st.chunk_offsets.getD chunk_number 0))
  else if layer ≠ 0 then Except.error ()
  else Except.ok none

/-- Run a sequence of replace calls, each tagged with the calling handle's
layer; a panic aborts the sequence. -/
def runReplaces (st : SharedIndexInternal) :
    List (Nat × Nat × Nat) → Except Unit SharedIndexInternal
  | [] => Except.ok st
  | (layer, cn, off) :: rest =>
    match SharedIndexHandle.replace layer st cn off with
    | Except.error e => Except.error e
    | Except.ok st' => runReplaces st' rest

/-! ## Chunk counts and the sparse checksum ledger (backup.rs, sparse.rs,
copier.rs, checksums/sparse.rs) -/

/-- Chunk count as computed by Backup::new (backup.rs line 30):
size / chunk_size, rounded toward zero. -/
def backupChunkCount (size chunk_size : Nat) : Nat := size / chunk_size

/-- Chunk count as computed by SparseStorage::create_file
(storage/sparse.rs line 164): rounded up. -/
def sparseChunkCount (size chunk_size : Nat) : Nat :=
  (size + chunk_size - 1) / chunk_size

/-- Chunk count as computed by the convergence loop (copier.rs 52-54). -/
def copierChunkCount (size chunk_size : Nat) : Nat :=
  size / chunk_size + (if size % chunk_size ≠ 0 then 1 else 0)

/-- The SparseChecksums ledger state (checksums/sparse.rs). -/
structure SparseChecksums where
  checksum_size : Nat
  chunk_size : Nat
  chunk_count : Nat
  sources : List ChunkSource
  checksums : List Nat
deriving DecidableEq

/-- SparseChecksums::new (checksums/sparse.rs 69-85): chunk_count Absent
source slots and checksum_size * chunk_count zero bytes. -/
def SparseChecksums.new (checksum_size chunk_size chunk_count : Nat) :
    SparseChecksums :=
  ⟨checksum_size, chunk_size, chunk_count,
    List.replicate chunk_count ChunkSource.Absent,
    List.replicate (checksum_size * chunk_count) 0⟩

/-- Overwrite the slice of xs starting at start with vals
(copy_from_slice on mut_checksum_slice). -/
def setSlice (xs : List Nat) (start : Nat) (vals : List Nat) : List Nat :=
  xs.take start ++ vals ++ xs.drop (start + vals.length)

/-- SparseChecksums::record_chunk (checksums/sparse.rs 169-190).  The
digest is abstract.  The Vec and slice indexing panics on the chunk number
derived from the offset are modelled as error values. -/
def SparseChecksums.record_chunk (digest : List Nat → List Nat)
    (st : SparseChecksums) (c : ChunkM) :
    Except Unit (ChecksumDiff × SparseChecksums) :=
  let work := (digest c.data).take st.checksum_size
  let chunk_number := c.offset / st.chunk_size
  if chunk_number < st.sources.length then
    if (chunk_number + 1) * st.checksum_size ≤ st.checksums.length then
      let source_was := st.sources.getD chunk_number ChunkSource.Absent
      let destination :=
        (st.checksums.drop (chunk_number * st.checksum_size)).take st.checksum_size
      let sources' := st.sources.set chunk_number ChunkSource.Current
      if source_was = ChunkSource.Absent ∨ work ≠ destination then
        Except.ok (ChecksumDiff.Replaced,
          { st with sources := sources'
                    checksums := setSlice st.checksums (chunk_number * st.checksum_size) work })
      else
        match source_was with
        | ChunkSource.Current =>
          Except.ok (ChecksumDiff.Unchanged, { st with sources := sources' })
        | ChunkSource.Historic =>
          Except.ok (ChecksumDiff.Touched, { st with sources := sources' })
        | ChunkSource.Absent => Except.error ()
    else Except.error ()
  else Except.error ()

/-! ## Sparse storage byte records (quick_io.rs, storage/sparse.rs) -/

/-- Big-endian u64 encoding of a value (write_be_u64 in quick_io.rs).
The divisors are the powers 2^56 down to 2^8. -/
def beU64 (v : Nat) : List Nat :=
  [v / 72057594037927936 % 256, v / 281474976710656 % 256,
   v / 1099511627776 % 256, v / 4294967296 % 256,
   v / 16777216 % 256, v / 65536 % 256, v / 256 % 256, v % 256]

/-- Big-endian u64 decoding from the head of a byte stream (read_be_u64 in
quick_io.rs); none when fewer than 8 bytes remain. -/
def readBeU64 : List Nat → Option (Nat × List Nat)
  | b0 :: b1 :: b2 :: b3 :: b4 :: b5 :: b6 :: b7 :: rest =>
    some (b0 * 72057594037927936 + b1 * 281474976710656 +
      b2 * 1099511627776 + b3 * 4294967296 + b4 * 16777216 +
      b5 * 65536 + b6 * 256 + b7, rest)
  | _ => none

/-- Chunk::chunk_number (chunk.rs 31-42), including the validation panics
of offset_chunk_number, modelled as error values, in source order. -/
def ChunkM.chunk_number (c : ChunkM) (chunk_size size : Nat) : Except Unit Nat :=
  if c.offset % chunk_size ≠ 0 then Except.error ()
  else if size ≤ c.offset then Except.error ()
  else if size < c.offset + c.data.length then Except.error ()
  else if chunk_size < c.data.length then Except.error ()
  else if c.data.length < chunk_size ∧ c.offset + c.data.length ≠ size then
    Except.error ()
  else Except.ok (c.offset / chunk_size)

/-- The byte record SparseStorage::write_chunk emits at its chosen write
position (storage/sparse.rs 345-397), for a writable storage of the given
logical size and chunk size.  The leading guard is the panic at line 350
when the chunk data length differs from the chunk size; the validation of
Chunk::chunk_number follows, then the big-endian u64 head, the data bytes,
and the zero padding.  Seek positions and the in-memory index do not
affect the record bytes and are not modelled here. -/
def SparseStorage.write_chunk_record (size chunk_size : Nat) (c : ChunkM) :
    Except Unit (List Nat) :=
  if c.data.length ≠ chunk_size then Except.error ()
  else
    match c.chunk_number chunk_size size with
    | Except.error e => Except.error e
    | Except.ok _ =>
      Except.ok (beU64 c.offset ++ c.data ++
        List.replicate
          (if c.data.length < chunk_size then chunk_size - c.data.length else 0)
          0)

/-- SparseStorage::read_chunk (storage/sparse.rs 428-462) on a byte
stream: decode the leading big-endian u64, stop on the end marker,
validate it as an offset, read chunk_size bytes and truncate the final
undersized chunk to the declared size.  Panics and read errors are error
values. -/
def SparseStorage.read_chunk (size chunk_size : Nat) (stream : List Nat) :
    Except Unit (Option ChunkM × List Nat) :=
  match readBeU64 stream with
  | none => Except.error ()
  | some (offset, rest) =>
    if offset = U64_MAX then Except.ok (none, rest)
    else if size ≤ offset then Except.error ()
    else if offset % chunk_size ≠ 0 then Except.error ()
    else
      let available := size - offset
      let data_len := if available < chunk_size then available else chunk_size
      if rest.length < chunk_size then Except.error ()
      else
        let data := rest.take chunk_size
        let data := if data_len ≠ chunk_size then data.take data_len else data
        Except.ok (some ⟨offset, data⟩, rest.drop chunk_size)

/-! ## State persistence (state.rs) -/

/-- Health of a backup attempt (state.rs). -/
inductive Health
  | Setup
  | Partial
  | Finishing
  | Success
  | Failure
deriving DecidableEq

/-- The fields of State that milestone and commit touch (state.rs). -/
structure StateM where
  path : Option String
  success_path : Option String
  permanent_path : Option String
  updated : Nat
  health : Health
  description : String
deriving DecidableEq

/-- Filesystem operations observable from State::commit and
StoreState::commit. -/
inductive FsOp
  | create (p : String)
  | writeYaml (p : String)
  | syncFile (p : String)
  | rename (src dst : String)
deriving DecidableEq

/-- The list of paths State::commit writes to (state.rs 117-128): the
current state path, the last-success path when health is Success, and the
permanent path. -/
def commitPaths (st : StateM) : List String :=
  (match st.path with | some p => [p] | none => []) ++
  (if st.health = Health.Success then
    (match st.success_path with | some p => [p] | none => [])
  else []) ++
  (match st.permanent_path with | some p => [p] | none => [])

/-- State::commit (state.rs 115-142): set updated to the current time,
then for each target path File::create it and serialize the YAML into it
directly. -/
def State.commit (now : Nat) (st : StateM) : StateM × List FsOp :=
  let st' := { st with updated := now }
  (st', (commitPaths st').flatMap (fun p => [FsOp.create p, FsOp.writeYaml p]))

/-- State::milestone (state.rs 275-280): update health and description,
then commit. -/
def State.milestone (now : Nat) (st : StateM) (health : Health)
    (description : String) : StateM × List FsOp :=
  State.commit now { st with health := health, description := description }

/-- Does this operation directly target the given path with a plain create
or write? -/
def opTargetsDirect (target : String) : FsOp → Bool
  | FsOp.create p => p == target
  | FsOp.writeYaml p => p == target
  | FsOp.syncFile _ => false
  | FsOp.rename _ _ => false

/-- Modelled from the spec: the atomic persistence pattern claim C6
ascribes to State::milestone (write the YAML to a .new sibling, fsync it,
rename it over the target).  In the source this pattern appears only in
StoreState::commit (store_state.rs 67-90), not in State::commit. -/
def atomicPersistOps (target : String) : List FsOp :=
  [FsOp.create (target ++ ".new"), FsOp.writeYaml (target ++ ".new"),
   FsOp.syncFile (target ++ ".new"), FsOp.rename (target ++ ".new") target]

/-! ## Trace event dispatch (change_logger.rs) -/

/-- The fields of a blk trace event that consume_event inspects. -/
structure BlkEventM where
  sector : Nat
  bytes : Nat
  action : Nat
  device : Nat
deriving DecidableEq

/-- One configured device together with its job's chunk size: the data
consume_event reads from the device map and the manifest. -/
structure DeviceJob where
  base_event_dev : Nat
  start_sector : Nat
  end_sector : Nat
  sector_count : Nat
  chunk_size : Nat
deriving DecidableEq

/-- The (job_index, chunk_index) marks one device contributes for one
event (change_logger.rs 275-297).  Arithmetic is u64, reduced modulo
2^64. -/
def eventMarksFor (i : Nat) (d : DeviceJob) (e : BlkEventM) :
    List (Nat × Nat) :=
  if d.base_event_dev = e.device ∧ d.start_sector ≤ e.sector ∧
      e.sector < d.end_sector then
    let relative_sector := e.sector - d.start_sector
    let first_byte := relative_sector * 512 % 2 ^ 64
    let last_byte := (first_byte + e.bytes - 1) % 2 ^ 64
    let first_chunk := first_byte / d.chunk_size
    let last_chunk := last_byte / d.chunk_size
    (List.range (last_chunk + 1 - first_chunk)).map
      (fun k => (i, first_chunk + k))
  else []

/-- consume_event (change_logger.rs 248-303): filter on write category,
QUEUE action and nonzero length, then visit every configured device whose
whole-disk event device matches and whose sector range contains the event
sector, in job order.  The enqueued marks are returned as a list. -/
def consume_event (devices : List DeviceJob) (e : BlkEventM) :
    List (Nat × Nat) :=
  if e.action >>> 16 &&& 2 = 0 then []
  else if e.action &&& 65535 ≠ 1 then []
  else if e.bytes = 0 then []
  else
    ((List.range devices.length).map
      (fun i => eventMarksFor i (devices.getD i ⟨0, 0, 0, 0, 0⟩) e)).flatten

/-! ## AliasTree (alias_tree.rs) -/

namespace AliasTree

variable {T : Type} [DecidableEq T] [Inhabited T]

/-- Vec indexing within one level; every reachable use is in bounds. -/
def getl (xs : List T) (i : Nat) : T := xs.getD i default

/-- AliasTree::new (alias_tree.rs 9-29): while the level size is positive,
push a level of that many copies of the running init value, then self-join
the init and halve the size. -/
def new (tor : T → T → T) (size : Nat) (init : T) : List (List T) :=
  if hsz : size = 0 then []
  else List.replicate size init :: new tor (size / 2) (tor init init)
termination_by size
decreasing_by omega

/-- The merge-up loop of AliasTree::merge_up (alias_tree.rs 31-46) from
level l upward: stop when level l does not exist or the parent slot is out
of range; recompute the parent from the two siblings; stop early when the
parent already holds the merged value. -/
def merge_up_from (tor : T → T → T) (levels : List (List T))
    (index l : Nat) : List (List T) :=
  if hl : l < levels.length then
    if (levels.getD l []).length ≤ index / 2 then levels
    else
      if tor (getl (levels.getD (l - 1) []) index)
          (getl (levels.getD (l - 1) []) (index ^^^ 1)) =
          getl (levels.getD l []) (index / 2) then levels
      else
        merge_up_from tor
          (levels.set l ((levels.getD l []).set (index / 2)
            (tor (getl (levels.getD (l - 1) []) index)
              (getl (levels.getD (l - 1) []) (index ^^^ 1)))))
          (index / 2) (l + 1)
  else levels
termination_by levels.length - l
decreasing_by simp only [List.length_set]; omega

/-- AliasTree::merge_up starts at level 1. -/
def merge_up (tor : T → T → T) (levels : List (List T)) (index : Nat) :
    List (List T) :=
  merge_up_from tor levels index 1

/-- AliasTree::set (alias_tree.rs 53-56). -/
def set (tor : T → T → T) (levels : List (List T)) (index : Nat) (value : T) :
    List (List T) :=
  merge_up tor (levels.set 0 ((levels.getD 0 []).set index value)) index

/-- AliasTree::or_mask (alias_tree.rs 58-62). -/
def or_mask (tor : T → T → T) (levels : List (List T)) (index : Nat)
    (value : T) : List (List T) :=
  merge_up tor
    (levels.set 0 ((levels.getD 0 []).set index
      (tor (getl (levels.getD 0 []) index) value)))
    index

/-- AliasTree::and_mask (alias_tree.rs 64-69); the leaf is combined with
the and operation, the merge still joins with or. -/
def and_mask (tor tand : T → T → T) (levels : List (List T)) (index : Nat)
    (value : T) : List (List T) :=
  merge_up tor
    (levels.set 0 ((levels.getD 0 []).set index
      (tand (getl (levels.getD 0 []) index) value)))
    index

/-- The refinement phase of find_next (alias_tree.rs 159-167): descend to
level 0 preferring the left child. -/
def refineDown (pred : T → Bool) (levels : List (List T)) :
    Nat → Nat → Nat
  | 0, index => index
  | l + 1, index =>
    if pred (getl (levels.getD l []) (index * 2)) then
      refineDown pred levels l (index * 2)
    else
      refineDown pred levels l (index * 2 ||| 1)

/-- The spill-tree walk of find_next (alias_tree.rs 113-135): return None
at level 0, otherwise drop one level and test the candidate spill root;
advance to the next candidate on a miss, descend through the position when
no root exists there. -/
def spillScan (pred : T → Bool) (levels : List (List T)) :
    Nat → Nat → Option (Nat × Nat)
  | 0, _ => none
  | lvl + 1, index =>
    if index < (levels.getD lvl []).length then
      if pred (getl (levels.getD lvl []) index) then some (lvl, index)
      else spillScan pred levels lvl ((index + 1) * 2)
    else spillScan pred levels lvl (index * 2)

/-- The seeking loop of find_next (alias_tree.rs 107-157): at the
rightmost slot of a level, walk the spill chain; otherwise test the right
sibling of a left child and ascend on a miss. -/
def seek (pred : T → Bool) (levels : List (List T)) (level index : Nat) :
    Option (Nat × Nat) :=
  if index = (levels.getD level []).length - 1 then
    spillScan pred levels level ((index + 1) * 2)
  else if hlt : level < levels.length then
    if index &&& 1 = 0 then
      if pred (getl (levels.getD level []) (index ||| 1)) then
        some (level, index ||| 1)
      else seek pred levels (level + 1) (index / 2)
    else seek pred levels (level + 1) (index / 2)
  else none
termination_by levels.length - level
decreasing_by all_goals omega

/-- AliasTree::find_next (alias_tree.rs 91-170).  The entry bounds check
reads levels[0], which panics on the empty tree of new(0, init); that
panic is the error value.  A found coarse position is refined down to the
smallest leaf index. -/
def find_next (pred : T → Bool) (levels : List (List T)) (start : Nat) :
    Except Unit (Option Nat) :=
  match levels with
  | [] => Except.error ()
  | L0 :: _ =>
    if L0.length ≤ start then Except.ok none
    else if pred (getl L0 start) then Except.ok (some start)
    else
      match seek pred levels 0 start with
      | none => Except.ok none
      | some (lvl, idx) => Except.ok (some (refineDown pred levels lvl idx))

/-- Modelled from the claim: the smallest index i at or after start whose
leaf satisfies pred, or none. -/
def leastMatch (pred : T → Bool) (L0 : List T) (start : Nat) : Option Nat :=
  if hlt : start < L0.length then
    if pred (getl L0 start) then some start
    else leastMatch pred L0 (start + 1)
  else none
termination_by L0.length - start
decreasing_by omega

/-- Trees built by new and mutated by any sequence of set, or_mask and
and_mask calls at valid leaf indices. -/
inductive Reachable (tor tand : T → T → T) (N : Nat) (init : T) :
    List (List T) → Prop
  | base : Reachable tor tand N init (new tor N init)
  | set_step (levels : List (List T)) (i : Nat) (v : T) :
      Reachable tor tand N init levels → i < N →
      Reachable tor tand N init (set tor levels i v)
  | or_step (levels : List (List T)) (i : Nat) (v : T) :
      Reachable tor tand N init levels → i < N →
      Reachable tor tand N init (or_mask tor levels i v)
  | and_step (levels : List (List T)) (i : Nat) (v : T) :
      Reachable tor tand N init levels → i < N →
      Reachable tor tand N init (and_mask tor tand levels i v)

/-- Shape invariant: level l exists exactly while N / 2^l is positive and
then holds N / 2^l entries. -/
def Shaped (N : Nat) (levels : List (List T)) : Prop :=
  (∀ l, l < levels.length → (levels.getD l []).length = N / 2 ^ l) ∧
  (∀ l, l < levels.length ↔ 0 < N / 2 ^ l)

/-- Local value invariant: every parent slot holds the join of its two
children. -/
def LocalGood (tor : T → T → T) (levels : List (List T)) : Prop :=
  ∀ l j, l + 1 < levels.length → j < (levels.getD (l + 1) []).length →
    getl (levels.getD (l + 1) []) j =
      tor (getl (levels.getD l []) (2 * j)) (getl (levels.getD l []) (2 * j + 1))

/-- Join of the n+1 values f lo, f (lo+1), ..., f (lo+n), associated to
the left. -/
def joinSeg (tor : T → T → T) (f : Nat → T) (lo : Nat) : Nat → T
  | 0 => f lo
  | n + 1 => tor (joinSeg tor f lo n) (f (lo + n + 1))

/-- Join of f over the half-open range from lo to hi (nonempty). -/
def joinRange (tor : T → T → T) (f : Nat → T) (lo hi : Nat) : T :=
  joinSeg tor f lo (hi - lo - 1)

/-- The l-fold self-join init values used to fill the levels of new. -/
def selfJoin (tor : T → T → T) : Nat → T → T
  | 0, x => x
  | l + 1, x => selfJoin tor l (tor x x)

/-- Postcondition of the seeking phase of find_next: a miss means no leaf
at or after start matches; a hit names an existing slot that matches, lies
strictly after start, and has only non-matching leaves between start and
its subtree. -/
def SeekSpec (pred : T → Bool) (levels : List (List T)) (N start : Nat) :
    Option (Nat × Nat) → Prop
  | none =>
    ∀ i, start ≤ i → i < N → pred (getl (levels.getD 0 []) i) = false
  | some (lvl, idx2) =>
    lvl < levels.length ∧ idx2 < (levels.getD lvl []).length ∧
    pred (getl (levels.getD lvl []) idx2) = true ∧
    start < idx2 * 2 ^ lvl ∧
    ∀ i, start ≤ i → i < N → i < idx2 * 2 ^ lvl →
      pred (getl (levels.getD 0 []) i) = false

end AliasTree

/-! # Theorems -/

/-- List.getD of a List.set at the written position, when in bounds. -/
theorem getD_set_eq {α : Type} (d a : α) :
    ∀ (xs : List α) (i : Nat), i < xs.length → (xs.set i a).getD i d = a := by
  intro xs
  induction xs with
  | nil => intro i h; simp at h
  | cons x xs ih =>
    intro i h
    cases i with
    | zero => rfl
    | succ j => simpa [List.set, List.getD] using ih j (by simpa using h)

/-- List.getD of a List.set at a different position. -/
theorem getD_set_ne {α : Type} (d a : α) :
    ∀ (xs : List α) (i j : Nat), i ≠ j → (xs.set i a).getD j d = xs.getD j d := by
  intro xs
  induction xs with
  | nil => intro i j _; simp [List.set]
  | cons x xs ih =>
    intro i j hij
    cases i with
    | zero =>
      cases j with
      | zero => exact absurd rfl hij
      | succ j' => rfl
    | succ i' =>
      cases j with
      | zero => rfl
      | succ j' => simpa [List.set, List.getD] using ih i' j' (fun h => hij (by rw [h]))

/-- Setting past the end of a list is a no-op. -/
theorem set_eq_of_le {α : Type} (a : α) :
    ∀ (xs : List α) (i : Nat), xs.length ≤ i → xs.set i a = xs := by
  intro xs
  induction xs with
  | nil => intro i _; simp [List.set]
  | cons x xs ih =>
    intro i h
    cases i with
    | zero => simp at h
    | succ j => simpa [List.set] using ih j (by simpa using h)

/-- List.getD past the end of the list returns the default. -/
theorem getD_len_le {α : Type} (d : α) :
    ∀ (xs : List α) (i : Nat), xs.length ≤ i → xs.getD i d = d := by
  intro xs
  induction xs with
  | nil => intro i _; rfl
  | cons x xs ih =>
    intro i h
    cases i with
    | zero => simp at h
    | succ j => simpa [List.getD_cons_succ] using ih j (by simpa using h)

namespace AliasTree

variable {T : Type} [DecidableEq T] [Inhabited T]

/-- getl on a replicated level returns the replicated element. -/
theorem getl_replicate (x : T) : ∀ (n i : Nat), i < n →
    getl (List.replicate n x) i = x := by
  intro n
  induction n with
  | zero => intro i h; omega
  | succ m ih =>
    intro i h
    cases i with
    | zero => rfl
    | succ j =>
      simpa [getl, List.replicate_succ, List.getD_cons_succ] using
        ih j (by omega)

/-- getl after an in-bounds write at the same slot. -/
theorem getl_set_self (xs : List T) (i : Nat) (a : T) (h : i < xs.length) :
    getl (xs.set i a) i = a :=
  getD_set_eq _ _ _ _ h

/-- getl after a write at a different slot. -/
theorem getl_set_ne (xs : List T) (i j : Nat) (a : T) (h : i ≠ j) :
    getl (xs.set i a) j = getl xs j :=
  getD_set_ne _ _ _ _ _ h

/-- Unfolding new at size zero. -/
theorem new_zero (tor : T → T → T) (init : T) : new tor 0 init = [] := by
  rw [new]
  simp

/-- Unfolding new at a positive size. -/
theorem new_succ (tor : T → T → T) (size : Nat) (init : T) (h : size ≠ 0) :
    new tor size init =
      List.replicate size init :: new tor (size / 2) (tor init init) := by
  rw [new]
  simp [h]

/-- A level of new exists exactly while the halved size is positive. -/
theorem new_level_iff (tor : T → T → T) : ∀ (l size : Nat) (init : T),
    l < (new tor size init).length ↔ 0 < size / 2 ^ l := by
  intro l
  induction l with
  | zero =>
    intro size init
    by_cases h : size = 0
    · subst h
      rw [new_zero]
      simp
    · rw [new_succ tor size init h]
      simp only [List.length_cons, Nat.pow_zero, Nat.div_one]
      omega
  | succ l ih =>
    intro size init
    by_cases h : size = 0
    · subst h
      rw [new_zero]
      simp
    · rw [new_succ tor size init h]
      simp only [List.length_cons, Nat.succ_lt_succ_iff]
      rw [ih (size / 2) (tor init init)]
      have h2 : 2 * 2 ^ l = 2 ^ (l + 1) := by rw [pow_succ]; ring
      rw [Nat.div_div_eq_div_mul, h2]

/-- The levels of new are replicated self-joins of init. -/
theorem new_getD_eq (tor : T → T → T) : ∀ (l size : Nat) (init : T),
    (new tor size init).getD l [] =
      if 0 < size / 2 ^ l then
        List.replicate (size / 2 ^ l) (selfJoin tor l init)
      else [] := by
  intro l
  induction l with
  | zero =>
    intro size init
    by_cases h : size = 0
    · subst h
      rw [new_zero]
      simp
    · rw [new_succ tor size init h]
      simp [selfJoin, Nat.pos_of_ne_zero h]
  | succ l ih =>
    intro size init
    by_cases h : size = 0
    · subst h
      rw [new_zero]
      simp
    · rw [new_succ tor size init h]
      simp only [List.getD_cons_succ]
      rw [ih (size / 2) (tor init init)]
      have h2 : 2 * 2 ^ l = 2 ^ (l + 1) := by rw [pow_succ]; ring
      rw [Nat.div_div_eq_div_mul, h2]
      rfl

/-- The successor self-join is the join of two copies of the previous
self-join; no algebraic laws are needed. -/
theorem selfJoin_join (tor : T → T → T) : ∀ (l : Nat) (x : T),
    selfJoin tor (l + 1) x = tor (selfJoin tor l x) (selfJoin tor l x) := by
  intro l
  induction l with
  | zero => intro x; rfl
  | succ l ih => intro x; exact ih (tor x x)

/-- Freshly built trees have the level shape. -/
theorem shaped_new (tor : T → T → T) (size : Nat) (init : T) :
    Shaped size (new tor size init) := by
  constructor
  · intro l hl
    rw [new_getD_eq, if_pos ((new_level_iff tor l size init).mp hl)]
    exact List.length_replicate _ _
  · intro l
    exact new_level_iff tor l size init

/-- Xor with one on an even number sets the low bit. -/
theorem xor_one_of_even (m : Nat) : (2 * m) ^^^ 1 = 2 * m + 1 := by
  apply Nat.eq_of_testBit_eq
  intro i
  cases i with
  | zero =>
    rw [Nat.testBit_xor]
    have e1 : (2 * m) % 2 = 0 := by omega
    have e2 : (2 * m + 1) % 2 = 1 := by omega
    simp [Nat.testBit_zero, e1, e2]
  | succ j =>
    rw [Nat.testBit_xor]
    have h3 : Nat.testBit 1 (j + 1) = false := by
      rw [Nat.testBit_add_one]
      simp [Nat.zero_testBit, show (1 : Nat) / 2 = 0 by omega]
    rw [h3, Bool.xor_false, Nat.testBit_add_one, Nat.testBit_add_one]
    congr 1
    omega

/-- Xor with one on an odd number clears the low bit. -/
theorem xor_one_of_odd (m : Nat) : (2 * m + 1) ^^^ 1 = 2 * m := by
  apply Nat.eq_of_testBit_eq
  intro i
  cases i with
  | zero =>
    rw [Nat.testBit_xor]
    have e1 : (2 * m) % 2 = 0 := by omega
    have e2 : (2 * m + 1) % 2 = 1 := by omega
    simp [Nat.testBit_zero, e1, e2]
  | succ j =>
    rw [Nat.testBit_xor]
    have h3 : Nat.testBit 1 (j + 1) = false := by
      rw [Nat.testBit_add_one]
      simp [Nat.zero_testBit, show (1 : Nat) / 2 = 0 by omega]
    rw [h3, Bool.xor_false, Nat.testBit_add_one, Nat.testBit_add_one]
    congr 1
    omega

/-- The pair an index and its xor-one sibling is the pair of children of
their common parent, up to commutativity of the join. -/
theorem tor_sibling (tor : T → T → T) (hcomm : ∀ a b, tor a b = tor b a)
    (f : Nat → T) (i : Nat) :
    tor (f i) (f (i ^^^ 1)) = tor (f (2 * (i / 2))) (f (2 * (i / 2) + 1)) := by
  rcases Nat.even_or_odd i with he | ho
  · obtain ⟨m, hm⟩ := he
    have hm2 : i = 2 * m := by omega
    subst hm2
    have hd : 2 * m / 2 = m := by omega
    rw [xor_one_of_even, hd]
  · obtain ⟨m, hm⟩ := ho
    subst hm
    have hd : (2 * m + 1) / 2 = m := by omega
    rw [xor_one_of_odd, hd]
    exact hcomm _ _

/-- Dividing both sides of a division inequality by a further power of
two preserves it. -/
theorem div_pow_le_div_pow (a b l m : Nat) (h : a / 2 ^ l ≤ b / 2 ^ l)
    (hlm : l ≤ m) : a / 2 ^ m ≤ b / 2 ^ m := by
  have h1 : 2 ^ l * 2 ^ (m - l) = 2 ^ m := by
    rw [← pow_add]
    congr 1
    omega
  rw [← h1, ← Nat.div_div_eq_div_mul, ← Nat.div_div_eq_div_mul]
  exact Nat.div_le_div_right h

/-- merge_up_from only rewrites existing slots: the level count and every
level length are unchanged. -/
theorem merge_up_from_lengths (tor : T → T → T) :
    ∀ (fuel : Nat) (levels : List (List T)) (index l : Nat),
      levels.length - l ≤ fuel →
      (merge_up_from tor levels index l).length = levels.length ∧
      ∀ l', ((merge_up_from tor levels index l).getD l' []).length =
        (levels.getD l' []).length := by
  intro fuel
  induction fuel with
  | zero =>
    intro levels index l h
    rw [merge_up_from, dif_neg (by omega)]
    exact ⟨rfl, fun _ => rfl⟩
  | succ fuel ih =>
    intro levels index l h
    rw [merge_up_from]
    split
    next hl =>
      split
      next => exact ⟨rfl, fun _ => rfl⟩
      next hcoarse =>
        split
        next => exact ⟨rfl, fun _ => rfl⟩
        next heq =>
          have hlen : (levels.set l ((levels.getD l []).set (index / 2)
              (tor (getl (levels.getD (l - 1) []) index)
                (getl (levels.getD (l - 1) []) (index ^^^ 1))))).length =
              levels.length := List.length_set levels _ _
          have hrow : ∀ l', ((levels.set l ((levels.getD l []).set (index / 2)
              (tor (getl (levels.getD (l - 1) []) index)
                (getl (levels.getD (l - 1) []) (index ^^^ 1))))).getD l' []).length =
              (levels.getD l' []).length := by
            intro l'
            by_cases hll : l = l'
            · subst hll
              rw [getD_set_eq _ _ _ _ hl]
              exact List.length_set _ _ _
            · rw [getD_set_ne _ _ _ _ _ hll]
          have hrec := ih _ (index / 2) (l + 1) (by rw [hlen]; omega)
          refine ⟨by rw [hrec.1, hlen], fun l' => ?_⟩
          rw [hrec.2 l', hrow l']
    next => exact ⟨rfl, fun _ => rfl⟩

/-- Shape depends only on the level lengths. -/
theorem shaped_eq_lengths (N : Nat) (levels levels' : List (List T))
    (h1 : levels'.length = levels.length)
    (h2 : ∀ l, (levels'.getD l []).length = (levels.getD l []).length)
    (hs : Shaped N levels) : Shaped N levels' := by
  constructor
  · intro l hl
    rw [h2 l]
    exact hs.1 l (by omega)
  · intro l
    rw [h1]
    exact hs.2 l

/-- The heart of the preservation proof: running merge-up from level l on
a tree whose slots at or above l still hold the pre-mutation values, whose
parent-join equations hold everywhere except on the ancestor path of the
mutated leaf k at levels at or above l, restores the full parent-join
invariant.  The early break is sound because a parent that already holds
the merged value, together with the untouched slots above it, certifies
the whole remaining path. -/
theorem merge_up_from_good (tor : T → T → T)
    (hcomm : ∀ a b, tor a b = tor b a)
    (N : Nat) (pre : List (List T)) (hpre : LocalGood tor pre)
    (hshape : Shaped N pre) (k : Nat) :
    ∀ (fuel l : Nat) (levels : List (List T)),
      pre.length - l ≤ fuel →
      1 ≤ l →
      levels.length = pre.length →
      (∀ l', (levels.getD l' []).length = (pre.getD l' []).length) →
      (∀ l' j, l ≤ l' → getl (levels.getD l' []) j = getl (pre.getD l' []) j) →
      (∀ l' j, l' + 1 < levels.length → j < (levels.getD (l' + 1) []).length →
        (l' + 1 < l ∨ j ≠ k / 2 ^ (l' + 1)) →
        getl (levels.getD (l' + 1) []) j =
          tor (getl (levels.getD l' []) (2 * j))
            (getl (levels.getD l' []) (2 * j + 1))) →
      LocalGood tor (merge_up_from tor levels (k / 2 ^ (l - 1)) l) := by
  intro fuel
  induction fuel with
  | zero =>
    intro l levels hfuel hl1 hlenth hlen hup hgood
    rw [merge_up_from, dif_neg (by omega)]
    intro l' j hb1 hb2
    exact hgood l' j hb1 hb2 (Or.inl (by omega))
  | succ fuel ih =>
    intro l levels hfuel hl1 hlenth hlen hup hgood
    have hps : 2 ^ (l - 1) * 2 = 2 ^ l := by
      have he : l - 1 + 1 = l := by omega
      rw [← pow_succ, he]
    have hk2 : k / 2 ^ (l - 1) / 2 = k / 2 ^ l := by
      rw [Nat.div_div_eq_div_mul, hps]
    rw [merge_up_from]
    split
    next hl =>
      split
      next hcoarse =>
        -- the parent slot is out of range: the leaf lies in a spill
        -- region from level l upward, so no path node remains stale
        intro l' j hb1 hb2
        by_cases hcase : l' + 1 < l ∨ j ≠ k / 2 ^ (l' + 1)
        · exact hgood l' j hb1 hb2 hcase
        · exfalso
          push_neg at hcase
          obtain ⟨hge, hj⟩ := hcase
          rw [hk2] at hcoarse
          have hNl : (levels.getD l []).length = N / 2 ^ l := by
            rw [hlen l]
            exact hshape.1 l (by omega)
          have hNl1 : (levels.getD (l' + 1) []).length = N / 2 ^ (l' + 1) := by
            rw [hlen (l' + 1)]
            exact hshape.1 (l' + 1) (by omega)
          have hstart : N / 2 ^ l ≤ k / 2 ^ l := by omega
          have hmono : N / 2 ^ (l' + 1) ≤ k / 2 ^ (l' + 1) :=
            div_pow_le_div_pow N k l (l' + 1) hstart (by omega)
          omega
      next hcoarse =>
        split
        next heq =>
          -- early break: the parent already holds the merged value
          intro l' j hb1 hb2
          by_cases hcase : l' + 1 < l ∨ j ≠ k / 2 ^ (l' + 1)
          · exact hgood l' j hb1 hb2 hcase
          · push_neg at hcase
            obtain ⟨hge, hj⟩ := hcase
            by_cases hll : l' + 1 = l
            · have hl' : l' = l - 1 := by omega
              subst hj
              rw [hll, ← hk2, ← heq, hl']
              exact tor_sibling tor hcomm _ _
            · have hgt : l ≤ l' := by omega
              rw [hup (l' + 1) j (by omega), hup l' (2 * j) hgt,
                hup l' (2 * j + 1) hgt]
              exact hpre l' j (by omega) (by rw [← hlen (l' + 1)]; omega)
        next heq =>
          have hcc : k / 2 ^ l / 2 = k / 2 ^ (l + 1) := by
            rw [Nat.div_div_eq_div_mul, ← pow_succ]
          have hcoarse_lt : k / 2 ^ (l - 1) / 2 < (levels.getD l []).length := by
            omega
          have hlen' : ∀ l'', ((levels.set l ((levels.getD l []).set
              (k / 2 ^ (l - 1) / 2)
              (tor (getl (levels.getD (l - 1) []) (k / 2 ^ (l - 1)))
                (getl (levels.getD (l - 1) []) (k / 2 ^ (l - 1) ^^^ 1))))).getD
              l'' []).length = (levels.getD l'' []).length := by
            intro l''
            by_cases hll : l = l''
            · subst hll
              rw [getD_set_eq _ _ _ _ hl]
              exact List.length_set _ _ _
            · rw [getD_set_ne _ _ _ _ _ hll]
          have happ := ih (l + 1)
            (levels.set l ((levels.getD l []).set (k / 2 ^ (l - 1) / 2)
              (tor (getl (levels.getD (l - 1) []) (k / 2 ^ (l - 1)))
                (getl (levels.getD (l - 1) []) (k / 2 ^ (l - 1) ^^^ 1)))))
            (by omega) (by omega)
            (by rw [List.length_set]; exact hlenth)
            (fun l'' => by rw [hlen' l'']; exact hlen l'')
            ?_ ?_
          · rw [show k / 2 ^ (l + 1 - 1) = k / 2 ^ (l - 1) / 2 from
              hk2.symm] at happ
            exact happ
          · -- slots at or above l+1 are untouched and still pre values
            intro l' j hge
            rw [getD_set_ne _ _ _ _ _ (by omega)]
            exact hup l' j (by omega)
          · -- the parent-join equations off the path at the next level
            intro l' j hb1 hb2 hcase
            rw [List.length_set] at hb1
            rw [hlen' (l' + 1)] at hb2
            rcases Nat.lt_trichotomy (l' + 1) l with hlt | heql | hgt
            · rw [getD_set_ne _ _ _ _ _ (show l ≠ l' + 1 by omega),
                getD_set_ne _ _ _ _ _ (show l ≠ l' by omega)]
              exact hgood l' j hb1 hb2 (Or.inl hlt)
            · -- the written level itself: the path slot was just fixed
              rw [heql, getD_set_eq _ _ _ _ hl,
                getD_set_ne _ _ _ _ _ (show l ≠ l' by omega)]
              by_cases hj : j = k / 2 ^ l
              · rw [hj, ← hk2, getl_set_self _ _ _ hcoarse_lt]
                rw [show l' = l - 1 by omega]
                exact tor_sibling tor hcomm
                  (getl (levels.getD (l - 1) [])) (k / 2 ^ (l - 1))
              · rw [getl_set_ne _ _ _ _
                  (show k / 2 ^ (l - 1) / 2 ≠ j by
                    rw [hk2]; exact fun h => hj h.symm)]
                have hgd := hgood l' j hb1
                  (by rw [heql]; rw [heql] at hb2; omega)
                  (Or.inr (by rw [heql]; exact fun h => hj h))
                rw [heql] at hgd
                exact hgd
            · -- a level above the written one
              have hj : j ≠ k / 2 ^ (l' + 1) := by
                rcases hcase with h | h
                · omega
                · exact h
              rw [getD_set_ne _ _ _ _ _ (show l ≠ l' + 1 by omega)]
              by_cases hll : l' = l
              · -- children live in the written row, off the written slot
                have hne1 : k / 2 ^ (l - 1) / 2 ≠ 2 * j := by
                  rw [hk2]
                  intro h
                  apply hj
                  rw [hll, ← hcc, h]
                  omega
                have hne2 : k / 2 ^ (l - 1) / 2 ≠ 2 * j + 1 := by
                  rw [hk2]
                  intro h
                  apply hj
                  rw [hll, ← hcc, h]
                  omega
                rw [hll, getD_set_eq _ _ _ _ hl,
                  getl_set_ne _ _ _ _ hne1, getl_set_ne _ _ _ _ hne2]
                have hgd := hgood l' j hb1 hb2 (Or.inr hj)
                rw [hll] at hgd
                exact hgd
              · rw [getD_set_ne _ _ _ _ _ (show l ≠ l' from
                  fun h => hll h.symm)]
                exact hgood l' j hb1 hb2 (Or.inr hj)
    next hl =>
      intro l' j hb1 hb2
      exact hgood l' j hb1 hb2 (Or.inl (by omega))

/-- Freshly built trees satisfy the parent-join invariant. -/
theorem localGood_new (tor : T → T → T) (size : Nat) (init : T) :
    LocalGood tor (new tor size init) := by
  intro l j h1 h2
  have hl : l < (new tor size init).length := by omega
  have hpos1 : 0 < size / 2 ^ (l + 1) :=
    (new_level_iff tor (l + 1) size init).mp h1
  have hpos0 : 0 < size / 2 ^ l := (new_level_iff tor l size init).mp hl
  have hlen1 : ((new tor size init).getD (l + 1) []).length = size / 2 ^ (l + 1) :=
    (shaped_new tor size init).1 (l + 1) h1
  rw [hlen1] at h2
  have hdd : size / 2 ^ (l + 1) = size / 2 ^ l / 2 := by
    have h2' : 2 ^ l * 2 = 2 ^ (l + 1) := by rw [pow_succ]
    rw [Nat.div_div_eq_div_mul, h2']
  have hchild : 2 * j + 1 < size / 2 ^ l := by omega
  rw [new_getD_eq, new_getD_eq, if_pos hpos1, if_pos hpos0]
  rw [getl_replicate _ _ _ h2, getl_replicate _ _ _ hchild,
    getl_replicate _ _ _ (by omega)]
  exact selfJoin_join tor l init

/-- Writing a leaf and merging up preserves the shape and the parent-join
invariant. -/
theorem write_merge_good (tor : T → T → T)
    (hcomm : ∀ a b, tor a b = tor b a) (N : Nat)
    (levels : List (List T)) (hshape : Shaped N levels)
    (hgood : LocalGood tor levels) (k : Nat) (w : T) :
    LocalGood tor (merge_up tor (levels.set 0 ((levels.getD 0 []).set k w)) k) ∧
    Shaped N (merge_up tor (levels.set 0 ((levels.getD 0 []).set k w)) k) := by
  have hlen0 : ∀ l', ((levels.set 0 ((levels.getD 0 []).set k w)).getD l' []).length =
      (levels.getD l' []).length := by
    intro l'
    by_cases h0 : 0 = l'
    · subst h0
      by_cases hnil : 0 < levels.length
      · rw [getD_set_eq _ _ _ _ hnil]
        exact List.length_set _ _ _
      · have he : levels = [] := List.eq_nil_of_length_eq_zero (by omega)
        rw [he]
        rfl
    · rw [getD_set_ne _ _ _ _ _ h0]
  have hgoodm : LocalGood tor
      (merge_up tor (levels.set 0 ((levels.getD 0 []).set k w)) k) := by
    have happ := merge_up_from_good tor hcomm N levels hgood hshape k
      levels.length 1 (levels.set 0 ((levels.getD 0 []).set k w))
      (by omega) (by omega) (List.length_set _ _ _) hlen0
      ?_ ?_
    · have hidx : k / 2 ^ (1 - 1) = k := by simp
      rw [hidx] at happ
      exact happ
    · intro l' j hge
      unfold getl
      rw [getD_set_ne _ _ _ _ _ (by omega)]
    · intro l' j hb1 hb2 hcase
      have hj : j ≠ k / 2 ^ (l' + 1) := by
        rcases hcase with h | h
        · omega
        · exact h
      rw [List.length_set] at hb1
      rw [hlen0 (l' + 1)] at hb2
      unfold getl
      rw [getD_set_ne _ _ _ _ _ (by omega)]
      by_cases h0 : l' = 0
      · subst h0
        by_cases hnil : 0 < levels.length
        · rw [getD_set_eq _ _ _ _ hnil]
          have hk1 : k ≠ 2 * j := by
            intro h
            apply hj
            rw [h, pow_one]
            omega
          have hk2 : k ≠ 2 * j + 1 := by
            intro h
            apply hj
            rw [h, pow_one]
            omega
          rw [show ((levels.getD 0 []).set k w).getD (2 * j) default =
              getl ((levels.getD 0 []).set k w) (2 * j) from rfl,
            show ((levels.getD 0 []).set k w).getD (2 * j + 1) default =
              getl ((levels.getD 0 []).set k w) (2 * j + 1) from rfl]
          rw [getl_set_ne _ _ _ _ hk1, getl_set_ne _ _ _ _ hk2]
          exact hgood 0 j hb1 hb2
        · omega
      · rw [getD_set_ne _ _ _ _ _ (by omega)]
        exact hgood l' j hb1 hb2
  refine ⟨hgoodm, ?_⟩
  have hml := merge_up_from_lengths tor
    ((levels.set 0 ((levels.getD 0 []).set k w)).length)
    (levels.set 0 ((levels.getD 0 []).set k w)) k 1 (by omega)
  refine shaped_eq_lengths N levels _ ?_ ?_ hshape
  · rw [show merge_up tor (levels.set 0 ((levels.getD 0 []).set k w)) k =
      merge_up_from tor (levels.set 0 ((levels.getD 0 []).set k w)) k 1 from
      rfl]
    rw [hml.1, List.length_set]
  · intro l
    rw [show merge_up tor (levels.set 0 ((levels.getD 0 []).set k w)) k =
      merge_up_from tor (levels.set 0 ((levels.getD 0 []).set k w)) k 1 from
      rfl]
    rw [hml.2 l, hlen0 l]

/-- Every reachable tree is shaped and satisfies the parent-join
invariant. -/
theorem reachable_inv (tor tand : T → T → T)
    (hcomm : ∀ a b, tor a b = tor b a) (N : Nat) (init : T) :
    ∀ levels, Reachable tor tand N init levels →
      Shaped N levels ∧ LocalGood tor levels := by
  intro levels h
  induction h with
  | base => exact ⟨shaped_new tor N init, localGood_new tor N init⟩
  | set_step levels i v hr hi ih =>
    have h2 := write_merge_good tor hcomm N levels ih.1 ih.2 i v
    exact ⟨h2.2, h2.1⟩
  | or_step levels i v hr hi ih =>
    have h2 := write_merge_good tor hcomm N levels ih.1 ih.2 i
      (tor (getl (levels.getD 0 []) i) v)
    exact ⟨h2.2, h2.1⟩
  | and_step levels i v hr hi ih =>
    have h2 := write_merge_good tor hcomm N levels ih.1 ih.2 i
      (tand (getl (levels.getD 0 []) i) v)
    exact ⟨h2.2, h2.1⟩

/-- Splitting a left-associated join of a segment at any interior point,
using associativity alone. -/
theorem joinSeg_split (tor : T → T → T)
    (hassoc : ∀ a b c, tor (tor a b) c = tor a (tor b c)) (f : Nat → T)
    (lo : Nat) :
    ∀ (n m : Nat), joinSeg tor f lo (m + n + 1) =
      tor (joinSeg tor f lo m) (joinSeg tor f (lo + m + 1) n) := by
  intro n
  induction n with
  | zero => intro m; rfl
  | succ n ih =>
    intro m
    have h1 : m + (n + 1) + 1 = (m + n + 1) + 1 := by omega
    rw [h1]
    show tor (joinSeg tor f lo (m + n + 1)) (f (lo + (m + n + 1) + 1)) = _
    rw [ih m, hassoc]
    have he : lo + (m + n + 1) + 1 = lo + m + 1 + n + 1 := by omega
    rw [he]
    rfl

/-- Global form of the invariant: every slot is the join of the leaves of
its aligned subtree. -/
theorem good_global (tor : T → T → T)
    (hassoc : ∀ a b c, tor (tor a b) c = tor a (tor b c)) (N : Nat)
    (levels : List (List T)) (hshape : Shaped N levels)
    (hgood : LocalGood tor levels) :
    ∀ l j, l < levels.length → j < (levels.getD l []).length →
      getl (levels.getD l []) j =
        joinSeg tor (getl (levels.getD 0 [])) (j * 2 ^ l) (2 ^ l - 1) := by
  intro l
  induction l with
  | zero =>
    intro j h1 h2
    simp [joinSeg]
  | succ l ih =>
    intro j h1 h2
    have hll : l < levels.length := by omega
    have hlen1 : (levels.getD (l + 1) []).length = N / 2 ^ (l + 1) :=
      hshape.1 _ h1
    have hlen0 : (levels.getD l []).length = N / 2 ^ l := hshape.1 _ hll
    have hdd : N / 2 ^ (l + 1) = N / 2 ^ l / 2 := by
      rw [Nat.div_div_eq_div_mul, ← pow_succ]
    have hcb : 2 * j + 1 < (levels.getD l []).length := by omega
    rw [hgood l j h1 h2]
    rw [ih (2 * j) hll (by omega), ih (2 * j + 1) hll hcb]
    have hp : 0 < 2 ^ l := Nat.pos_pow_of_pos l (by omega)
    have e1 : j * 2 ^ (l + 1) = 2 * j * 2 ^ l := by
      rw [pow_succ]
      ring
    have e2 : (2 * j + 1) * 2 ^ l = 2 * j * 2 ^ l + 2 ^ l := by ring
    have hm : 2 ^ (l + 1) - 1 = (2 ^ l - 1) + (2 ^ l - 1) + 1 := by
      rw [pow_succ]
      omega
    have he : 2 * j * 2 ^ l + (2 ^ l - 1) + 1 = (2 * j + 1) * 2 ^ l := by
      omega
    rw [e1, hm, joinSeg_split tor hassoc _ _ (2 ^ l - 1) (2 ^ l - 1), he]

/-- Or with one on an even number sets the low bit. -/
theorem or_one_of_even (m : Nat) : (2 * m) ||| 1 = 2 * m + 1 := by
  apply Nat.eq_of_testBit_eq
  intro i
  cases i with
  | zero =>
    rw [Nat.testBit_or]
    have e1 : (2 * m) % 2 = 0 := by omega
    have e2 : (2 * m + 1) % 2 = 1 := by omega
    simp [Nat.testBit_zero, e1, e2]
  | succ j =>
    rw [Nat.testBit_or]
    have h3 : Nat.testBit 1 (j + 1) = false := by
      rw [Nat.testBit_add_one]
      simp [Nat.zero_testBit, show (1 : Nat) / 2 = 0 by omega]
    rw [h3, Bool.or_false, Nat.testBit_add_one, Nat.testBit_add_one]
    congr 1
    omega

/-- A predicate distributing over the join holds on a joined segment
exactly when it holds on one of its members. -/
theorem pred_joinSeg (tor : T → T → T) (pred : T → Bool)
    (hpred : ∀ a b, pred (tor a b) = (pred a || pred b)) (f : Nat → T)
    (lo : Nat) :
    ∀ n, (pred (joinSeg tor f lo n) = true ↔
      ∃ i, lo ≤ i ∧ i ≤ lo + n ∧ pred (f i) = true) := by
  intro n
  induction n with
  | zero =>
    constructor
    · intro h
      exact ⟨lo, Nat.le_refl _, by omega, h⟩
    · rintro ⟨i, h1, h2, h3⟩
      have he : i = lo := by omega
      rw [← he]
      exact h3
  | succ n ih =>
    show pred (tor (joinSeg tor f lo n) (f (lo + n + 1))) = true ↔ _
    rw [hpred, Bool.or_eq_true, ih]
    constructor
    · rintro (⟨i, h1, h2, h3⟩ | h)
      · exact ⟨i, h1, by omega, h3⟩
      · exact ⟨lo + n + 1, by omega, by omega, h⟩
    · rintro ⟨i, h1, h2, h3⟩
      by_cases hi : i ≤ lo + n
      · exact Or.inl ⟨i, h1, hi, h3⟩
      · have he : i = lo + n + 1 := by omega
        rw [he] at h3
        exact Or.inr h3

/-- A distributing predicate holds on a slot exactly when it holds on a
leaf of the slot's aligned subtree. -/
theorem pred_node (tor : T → T → T)
    (hassoc : ∀ a b c, tor (tor a b) c = tor a (tor b c)) (N : Nat)
    (levels : List (List T)) (hshape : Shaped N levels)
    (hgood : LocalGood tor levels) (pred : T → Bool)
    (hpred : ∀ a b, pred (tor a b) = (pred a || pred b)) (l j : Nat)
    (hl : l < levels.length) (hj : j < (levels.getD l []).length) :
    (pred (getl (levels.getD l []) j) = true ↔
      ∃ i, j * 2 ^ l ≤ i ∧ i < (j + 1) * 2 ^ l ∧
        pred (getl (levels.getD 0 []) i) = true) := by
  rw [good_global tor hassoc N levels hshape hgood l j hl hj,
    pred_joinSeg tor pred hpred _ _ _]
  have hp : 0 < 2 ^ l := Nat.pos_pow_of_pos l (by omega)
  have e1 : (j + 1) * 2 ^ l = j * 2 ^ l + 2 ^ l := by ring
  constructor
  · rintro ⟨i, h1, h2, h3⟩
    exact ⟨i, h1, by omega, h3⟩
  · rintro ⟨i, h1, h2, h3⟩
    exact ⟨i, h1, by omega, h3⟩

/-- If a distributing predicate fails on a slot, it fails on every leaf of
the slot's aligned subtree. -/
theorem pred_node_false (tor : T → T → T)
    (hassoc : ∀ a b c, tor (tor a b) c = tor a (tor b c)) (N : Nat)
    (levels : List (List T)) (hshape : Shaped N levels)
    (hgood : LocalGood tor levels) (pred : T → Bool)
    (hpred : ∀ a b, pred (tor a b) = (pred a || pred b)) (l j : Nat)
    (hl : l < levels.length) (hj : j < (levels.getD l []).length)
    (hfalse : pred (getl (levels.getD l []) j) = false) :
    ∀ i, j * 2 ^ l ≤ i → i < (j + 1) * 2 ^ l →
      pred (getl (levels.getD 0 []) i) = false := by
  intro i h1 h2
  cases hb : pred (getl (levels.getD 0 []) i) with
  | false => rfl
  | true =>
    have hx := (pred_node tor hassoc N levels hshape hgood pred hpred l j
      hl hj).mpr ⟨i, h1, h2, hb⟩
    rw [hfalse] at hx
    cases hx

/-- Unfolding leastMatch past the end of the level. -/
theorem leastMatch_stop (pred : T → Bool) (L0 : List T) (start : Nat)
    (h : L0.length ≤ start) : leastMatch pred L0 start = none := by
  rw [leastMatch, dif_neg (by omega)]

/-- Unfolding leastMatch on an immediate hit. -/
theorem leastMatch_hit (pred : T → Bool) (L0 : List T) (start : Nat)
    (h : start < L0.length) (hp : pred (getl L0 start) = true) :
    leastMatch pred L0 start = some start := by
  rw [leastMatch, dif_pos h, if_pos hp]

/-- Unfolding leastMatch past a miss. -/
theorem leastMatch_miss (pred : T → Bool) (L0 : List T) (start : Nat)
    (h : start < L0.length) (hp : pred (getl L0 start) = false) :
    leastMatch pred L0 start = leastMatch pred L0 (start + 1) := by
  rw [leastMatch, dif_pos h, if_neg (by rw [hp]; exact Bool.false_ne_true)]

/-- leastMatch returns none when no leaf at or after start matches. -/
theorem leastMatch_all_false (pred : T → Bool) (L0 : List T) :
    ∀ (fuel start : Nat), L0.length - start ≤ fuel →
      (∀ i, start ≤ i → i < L0.length → pred (getl L0 i) = false) →
      leastMatch pred L0 start = none := by
  intro fuel
  induction fuel with
  | zero =>
    intro start h hall
    exact leastMatch_stop _ _ _ (by omega)
  | succ fuel ih =>
    intro start h hall
    by_cases hlt : start < L0.length
    · rw [leastMatch_miss _ _ _ hlt (hall start (Nat.le_refl _) hlt)]
      exact ih (start + 1) (by omega) (fun i h1 h2 => hall i (by omega) h2)
    · exact leastMatch_stop _ _ _ (by omega)

/-- leastMatch returns the first matching leaf. -/
theorem leastMatch_finds (pred : T → Bool) (L0 : List T) :
    ∀ (fuel start r : Nat), L0.length - start ≤ fuel →
      start ≤ r → r < L0.length → pred (getl L0 r) = true →
      (∀ i, start ≤ i → i < r → pred (getl L0 i) = false) →
      leastMatch pred L0 start = some r := by
  intro fuel
  induction fuel with
  | zero =>
    intro start r h h1 h2 h3 h4
    omega
  | succ fuel ih =>
    intro start r h h1 h2 h3 h4
    by_cases heq : start = r
    · rw [heq]
      exact leastMatch_hit _ _ _ (by omega) h3
    · rw [leastMatch_miss _ _ _ (by omega)
        (h4 start (Nat.le_refl _) (by omega))]
      exact ih (start + 1) r (by omega) (by omega) h2 h3
        (fun i ha hb => h4 i (by omega) hb)

/-- Correctness of the descent phase: from a matching slot, refineDown
returns the smallest matching leaf of the slot's subtree. -/
theorem refineDown_correct (tor : T → T → T)
    (hassoc : ∀ a b c, tor (tor a b) c = tor a (tor b c)) (N : Nat)
    (levels : List (List T)) (hshape : Shaped N levels)
    (hgood : LocalGood tor levels) (pred : T → Bool)
    (hpred : ∀ a b, pred (tor a b) = (pred a || pred b)) :
    ∀ l j, l < levels.length → j < (levels.getD l []).length →
      pred (getl (levels.getD l []) j) = true →
      (j * 2 ^ l ≤ refineDown pred levels l j ∧
       refineDown pred levels l j < (j + 1) * 2 ^ l ∧
       pred (getl (levels.getD 0 []) (refineDown pred levels l j)) = true ∧
       ∀ i, j * 2 ^ l ≤ i → i < refineDown pred levels l j →
         pred (getl (levels.getD 0 []) i) = false) := by
  intro l
  induction l with
  | zero =>
    intro j h1 h2 h3
    refine ⟨by simp [refineDown], by simp [refineDown], h3, ?_⟩
    intro i hi1 hi2
    simp only [refineDown] at hi2
    simp only [pow_zero, mul_one] at hi1
    omega
  | succ l ih =>
    intro j h1 h2 hp
    have hll : l < levels.length := by omega
    have hlen1 : (levels.getD (l + 1) []).length = N / 2 ^ (l + 1) :=
      hshape.1 _ h1
    have hlen0 : (levels.getD l []).length = N / 2 ^ l := hshape.1 _ hll
    have hdd : N / 2 ^ (l + 1) = N / 2 ^ l / 2 := by
      rw [Nat.div_div_eq_div_mul, ← pow_succ]
    have h2l : 2 * j + 1 < (levels.getD l []).length := by omega
    have hnode := hgood l j h1 h2
    have hsplit2 : pred (getl (levels.getD (l + 1) []) j) =
        (pred (getl (levels.getD l []) (2 * j)) ||
         pred (getl (levels.getD l []) (2 * j + 1))) := by
      rw [hnode]
      exact hpred _ _
    have hjr : j * 2 = 2 * j := Nat.mul_comm j 2
    have hor : 2 * j ||| 1 = 2 * j + 1 := or_one_of_even j
    have hp2 : 0 < 2 ^ l := Nat.pos_pow_of_pos l (by omega)
    have e1 : j * 2 ^ (l + 1) = 2 * j * 2 ^ l := by
      rw [pow_succ]
      ring
    have e2 : (j + 1) * 2 ^ (l + 1) = (2 * j + 2) * 2 ^ l := by
      rw [pow_succ]
      ring
    have e3 : (2 * j + 1) * 2 ^ l = 2 * j * 2 ^ l + 2 ^ l := by ring
    have e4 : (2 * j + 2) * 2 ^ l = 2 * j * 2 ^ l + 2 ^ l + 2 ^ l := by ring
    have e5 : (2 * j + 1 + 1) * 2 ^ l = 2 * j * 2 ^ l + 2 ^ l + 2 ^ l := by
      ring
    show j * 2 ^ (l + 1) ≤ refineDown pred levels (l + 1) j ∧ _
    simp only [refineDown, hjr, hor]
    by_cases hc0 : pred (getl (levels.getD l []) (2 * j)) = true
    · rw [if_pos hc0]
      obtain ⟨ha, hb, hc, hd⟩ := ih (2 * j) hll (by omega) hc0
      refine ⟨by omega, by omega, hc, ?_⟩
      intro i hi1 hi2
      exact hd i (by omega) hi2
    · simp only [Bool.not_eq_true] at hc0
      rw [if_neg (by rw [hc0]; exact Bool.false_ne_true)]
      have hc1 : pred (getl (levels.getD l []) (2 * j + 1)) = true := by
        rw [hsplit2, hc0] at hp
        simpa using hp
      obtain ⟨ha, hb, hc, hd⟩ := ih (2 * j + 1) hll h2l hc1
      refine ⟨by omega, by omega, hc, ?_⟩
      intro i hi1 hi2
      by_cases hileft : i < (2 * j + 1) * 2 ^ l
      · exact pred_node_false tor hassoc N levels hshape hgood pred hpred
          l (2 * j) hll (by omega) hc0 i (by omega) hileft
      · exact hd i (by omega) hi2

/-- An aligned subtree of an existing slot lies inside the leaf range. -/
theorem subtree_end_le (N l j : Nat) (h : j < N / 2 ^ l) :
    (j + 1) * 2 ^ l ≤ N :=
  calc (j + 1) * 2 ^ l ≤ N / 2 ^ l * 2 ^ l :=
    Nat.mul_le_mul_right _ (by omega)
  _ ≤ N := Nat.div_mul_le_self N _

/-- A level with an entry exists. -/
theorem level_exists_of_len_pos (levels : List (List T)) (l : Nat)
    (h : 0 < (levels.getD l []).length) : l < levels.length := by
  by_contra hc
  rw [getD_len_le [] levels l (by omega)] at h
  simp at h

/-- Dropping one from the exponent against a factor two only grows. -/
theorem mul_pow_pred_le (m L : Nat) : m * 2 ^ L ≤ m * 2 * 2 ^ (L - 1) := by
  cases L with
  | zero =>
    simp only [Nat.zero_sub, pow_zero, mul_one]
    omega
  | succ K =>
    simp only [Nat.add_sub_cancel]
    exact Nat.le_of_eq (by rw [pow_succ]; ring)

/-- Correctness of the spill-tree walk: called below the frontier of
already cleared leaves it either certifies that nothing at or after start
matches, or finds a matching slot after start with everything before it
cleared. -/
theorem spillScan_correct (tor : T → T → T)
    (hassoc : ∀ a b c, tor (tor a b) c = tor a (tor b c)) (N : Nat)
    (levels : List (List T)) (hshape : Shaped N levels)
    (hgood : LocalGood tor levels) (pred : T → Bool)
    (hpred : ∀ a b, pred (tor a b) = (pred a || pred b)) (start : Nat) :
    ∀ L idx : Nat,
      (∀ i, start ≤ i → i < N → i < idx * 2 ^ (L - 1) →
        pred (getl (levels.getD 0 []) i) = false) →
      start < idx * 2 ^ (L - 1) →
      N / 2 ^ (L - 1) ≤ idx + 1 →
      (L = 0 → N ≤ idx) →
      SeekSpec pred levels N start (spillScan pred levels L idx) := by
  intro L
  induction L with
  | zero =>
    intro idx hclear hstart hfar hbase
    show ∀ i, start ≤ i → i < N → pred (getl (levels.getD 0 []) i) = false
    intro i h1 h2
    have hb := hbase rfl
    have hi : i < idx := by omega
    refine hclear i h1 h2 ?_
    simpa using hi
  | succ L ih =>
    intro idx hclear hstart hfar hbase
    simp only [Nat.add_sub_cancel] at hclear hstart hfar
    have hred : spillScan pred levels (L + 1) idx =
        if idx < (levels.getD L []).length then
          if pred (getl (levels.getD L []) idx) then some (L, idx)
          else spillScan pred levels L ((idx + 1) * 2)
        else spillScan pred levels L (idx * 2) := rfl
    rw [hred]
    by_cases hin : idx < (levels.getD L []).length
    · rw [if_pos hin]
      have hLlt : L < levels.length :=
        level_exists_of_len_pos levels L (by omega)
      have hlenL : (levels.getD L []).length = N / 2 ^ L := hshape.1 L hLlt
      have hp2 : 0 < 2 ^ L := Nat.pos_pow_of_pos L (by omega)
      have eend : (idx + 1) * 2 ^ L = idx * 2 ^ L + 2 ^ L := by ring
      by_cases hp : pred (getl (levels.getD L []) idx) = true
      · rw [if_pos hp]
        exact ⟨hLlt, hin, hp, hstart, hclear⟩
      · rw [if_neg hp]
        simp only [Bool.not_eq_true] at hp
        refine ih ((idx + 1) * 2) ?_ ?_ ?_ ?_
        · intro i h1 h2 h3
          by_cases hi : i < idx * 2 ^ L
          · exact hclear i h1 h2 hi
          · refine pred_node_false tor hassoc N levels hshape hgood pred
              hpred L idx hLlt hin hp i (by omega) ?_
            rw [eend]
            cases L with
            | zero =>
              have hb : N ≤ idx + 1 := by simpa using hfar
              simp only [pow_zero, mul_one]
              omega
            | succ K =>
              have e : (idx + 1) * 2 * 2 ^ (K + 1 - 1) =
                  idx * 2 ^ (K + 1) + 2 ^ (K + 1) := by
                simp only [Nat.add_sub_cancel, pow_succ]
                ring
              omega
        · have hm := mul_pow_pred_le (idx + 1) L
          omega
        · cases L with
          | zero =>
            simp only [Nat.zero_sub, pow_zero, Nat.div_one]
            have hb : N ≤ idx + 1 := by simpa using hfar
            omega
          | succ K =>
            simp only [Nat.add_sub_cancel]
            have hdd : N / 2 ^ (K + 1) = N / 2 ^ K / 2 := by
              rw [Nat.div_div_eq_div_mul, ← pow_succ]
            omega
        · intro hL0
          rw [hL0] at hfar
          have hb : N ≤ idx + 1 := by simpa using hfar
          omega
    · rw [if_neg hin]
      have hge : (levels.getD L []).length ≤ idx := by omega
      have hNle : L = 0 → N ≤ idx := by
        intro h0
        rw [h0] at hge
        by_cases hl0 : 0 < levels.length
        · have hlen0 : (levels.getD 0 []).length = N / 2 ^ 0 :=
            hshape.1 0 hl0
          simp only [pow_zero, Nat.div_one] at hlen0
          omega
        · have hN0 : ¬ 0 < N / 2 ^ 0 := fun h2 => hl0 ((hshape.2 0).mpr h2)
          simp only [pow_zero, Nat.div_one] at hN0
          omega
      refine ih (idx * 2) ?_ ?_ ?_ ?_
      · intro i h1 h2 h3
        refine hclear i h1 h2 ?_
        cases L with
        | zero =>
          have hb := hNle rfl
          simp only [pow_zero, mul_one]
          omega
        | succ K =>
          have e : idx * 2 * 2 ^ (K + 1 - 1) = idx * 2 ^ (K + 1) := by
            simp only [Nat.add_sub_cancel, pow_succ]
            ring
          omega
      · have hm := mul_pow_pred_le idx L
        omega
      · cases L with
        | zero =>
          simp only [Nat.zero_sub, pow_zero, Nat.div_one]
          have hb := hNle rfl
          omega
        | succ K =>
          simp only [Nat.add_sub_cancel]
          have hdd : N / 2 ^ (K + 1) = N / 2 ^ K / 2 := by
            rw [Nat.div_div_eq_div_mul, ← pow_succ]
          by_cases hL : K + 1 < levels.length
          · have hlen : (levels.getD (K + 1) []).length = N / 2 ^ (K + 1) :=
              hshape.1 _ hL
            omega
          · have hN0 : ¬ 0 < N / 2 ^ (K + 1) :=
              fun h2 => hL ((hshape.2 (K + 1)).mpr h2)
            omega
      · intro hL0
        have hb := hNle hL0
        omega

/-- Correctness of the seeking loop of find_next: starting anywhere below
the cleared frontier it either certifies a global miss or finds a matching
slot after start with everything before it cleared. -/
theorem seek_correct (tor : T → T → T)
    (hassoc : ∀ a b c, tor (tor a b) c = tor a (tor b c)) (N : Nat)
    (levels : List (List T)) (hshape : Shaped N levels)
    (hgood : LocalGood tor levels) (pred : T → Bool)
    (hpred : ∀ a b, pred (tor a b) = (pred a || pred b)) (start : Nat) :
    ∀ fuel level index : Nat, levels.length - level ≤ fuel →
      level < levels.length →
      index < (levels.getD level []).length →
      (∀ i, start ≤ i → i < N → i < (index + 1) * 2 ^ level →
        pred (getl (levels.getD 0 []) i) = false) →
      start < (index + 1) * 2 ^ level →
      SeekSpec pred levels N start (seek pred levels level index) := by
  intro fuel
  induction fuel with
  | zero =>
    intro level index hfuel hlev hidx hclear hstart
    omega
  | succ fuel ih =>
    intro level index hfuel hlev hidx hclear hstart
    have hlen : (levels.getD level []).length = N / 2 ^ level :=
      hshape.1 _ hlev
    rw [seek]
    by_cases hedge : index = (levels.getD level []).length - 1
    · rw [if_pos hedge]
      refine spillScan_correct tor hassoc N levels hshape hgood pred hpred
        start level ((index + 1) * 2) ?_ ?_ ?_ ?_
      · intro i h1 h2 h3
        refine hclear i h1 h2 ?_
        cases level with
        | zero =>
          have hlen0 : (levels.getD 0 []).length = N := by simpa using hlen
          simp only [pow_zero, mul_one]
          omega
        | succ K =>
          have e : (index + 1) * 2 * 2 ^ (K + 1 - 1) =
              (index + 1) * 2 ^ (K + 1) := by
            simp only [Nat.add_sub_cancel, pow_succ]
            ring
          omega
      · have hm := mul_pow_pred_le (index + 1) level
        omega
      · cases level with
        | zero =>
          simp only [Nat.zero_sub, pow_zero, Nat.div_one]
          have hlen0 : (levels.getD 0 []).length = N := by simpa using hlen
          omega
        | succ K =>
          simp only [Nat.add_sub_cancel]
          have hdd : N / 2 ^ (K + 1) = N / 2 ^ K / 2 := by
            rw [Nat.div_div_eq_div_mul, ← pow_succ]
          omega
      · intro hL0
        rw [hL0] at hlen hedge hidx
        have hlen0 : (levels.getD 0 []).length = N := by simpa using hlen
        omega
    · rw [if_neg hedge, dif_pos hlev]
      have hp2 : 0 < 2 ^ level := Nat.pos_pow_of_pos level (by omega)
      have hlen2 : 2 ≤ N / 2 ^ level := by omega
      have hdd : N / 2 ^ (level + 1) = N / 2 ^ level / 2 := by
        rw [Nat.div_div_eq_div_mul, ← pow_succ]
      have hlev1 : level + 1 < levels.length :=
        (hshape.2 (level + 1)).mpr (by omega)
      have hlen1 : (levels.getD (level + 1) []).length = N / 2 ^ (level + 1) :=
        hshape.1 _ hlev1
      have hand : index &&& 1 = index % 2 := Nat.and_one_is_mod index
      have epow : 2 ^ (level + 1) = 2 * 2 ^ level := by
        rw [pow_succ]
        ring
      by_cases hpar : index % 2 = 0
      · rw [if_pos (show index &&& 1 = 0 by rw [hand]; exact hpar)]
        have hor : index ||| 1 = index + 1 := by
          have hm : index = 2 * (index / 2) := by omega
          rw [hm]
          exact or_one_of_even (index / 2)
        rw [hor]
        by_cases hp : pred (getl (levels.getD level []) (index + 1)) = true
        · rw [if_pos hp]
          exact ⟨hlev, by omega, hp, hstart, hclear⟩
        · rw [if_neg hp]
          simp only [Bool.not_eq_true] at hp
          have hm2 : 2 * (index / 2) = index := by omega
          have e3 : (index / 2 + 1) * 2 ^ (level + 1) =
              (index + 1 + 1) * 2 ^ level :=
            calc (index / 2 + 1) * 2 ^ (level + 1)
                = (2 * (index / 2) + 2) * 2 ^ level := by rw [epow]; ring
              _ = (index + 1 + 1) * 2 ^ level := by rw [hm2]
          have emono : (index + 1) * 2 ^ level ≤ (index + 1 + 1) * 2 ^ level :=
            Nat.mul_le_mul_right _ (by omega)
          refine ih (level + 1) (index / 2) (by omega) hlev1 ?_ ?_ ?_
          · rw [hlen1]
            omega
          · intro i h1 h2 h3
            by_cases hi : i < (index + 1) * 2 ^ level
            · exact hclear i h1 h2 hi
            · exact pred_node_false tor hassoc N levels hshape hgood pred
                hpred level (index + 1) hlev (by omega) hp i (by omega)
                (by omega)
          · omega
      · rw [if_neg (show ¬ index &&& 1 = 0 by rw [hand]; exact hpar)]
        have hm2 : 2 * (index / 2) + 1 = index := by omega
        have e3 : (index / 2 + 1) * 2 ^ (level + 1) =
            (index + 1) * 2 ^ level :=
          calc (index / 2 + 1) * 2 ^ (level + 1)
              = (2 * (index / 2) + 1 + 1) * 2 ^ level := by rw [epow]; ring
            _ = (index + 1) * 2 ^ level := by rw [hm2]
        refine ih (level + 1) (index / 2) (by omega) hlev1 ?_ ?_ ?_
        · rw [hlen1]
          omega
        · intro i h1 h2 h3
          exact hclear i h1 h2 (by omega)
        · omega

/-- C1 (corrected): on every nonempty tree reachable by new, set, or_mask
and and_mask, and for every predicate that distributes over the element
join (pred (a|b) = pred a || pred b), find_next returns exactly the
smallest leaf index at or after start whose leaf satisfies the predicate,
or none when no such index exists.  (The original claim, for arbitrary
predicates, is refuted by trackup_C1_cex.) -/
theorem trackup_C1 (tor tand : T → T → T) (N : Nat) (init : T)
    (levels : List (List T)) (pred : T → Bool) (start : Nat)
    (hreach : Reachable tor tand N init levels)
    (hassoc : ∀ a b c, tor (tor a b) c = tor a (tor b c))
    (hcomm : ∀ a b, tor a b = tor b a)
    (hpred : ∀ a b, pred (tor a b) = (pred a || pred b))
    (hN : 0 < N) :
    find_next pred levels start =
      Except.ok (leastMatch pred (levels.getD 0 []) start) := by
  obtain ⟨hshape, hgood⟩ := reachable_inv tor tand hcomm N init levels hreach
  have h0lt : 0 < levels.length := (hshape.2 0).mpr (by simpa using hN)
  have hlen0 : (levels.getD 0 []).length = N := by
    have h := hshape.1 0 h0lt
    simpa using h
  cases levels with
  | nil => simp at h0lt
  | cons L0 rest =>
    have hg : (L0 :: rest).getD 0 ([] : List T) = L0 := rfl
    rw [hg] at hlen0
    rw [hg]
    have hred : find_next pred (L0 :: rest) start =
        (if L0.length ≤ start then Except.ok none
         else if pred (getl L0 start) then Except.ok (some start)
         else
           match seek pred (L0 :: rest) 0 start with
           | none => Except.ok none
           | some (lvl, idx) =>
             Except.ok (some (refineDown pred (L0 :: rest) lvl idx))) := rfl
    rw [hred]
    by_cases hend : L0.length ≤ start
    · rw [if_pos hend, leastMatch_stop pred L0 start hend]
    · rw [if_neg hend]
      by_cases hp : pred (getl L0 start) = true
      · rw [if_pos hp, leastMatch_hit pred L0 start (by omega) hp]
      · rw [if_neg hp]
        simp only [Bool.not_eq_true] at hp
        have hsc := seek_correct tor hassoc N (L0 :: rest) hshape hgood pred
          hpred start (L0 :: rest).length 0 start (by omega) h0lt
          (by rw [hg]; omega)
          (by
            intro i h1 h2 h3
            simp only [pow_zero, mul_one] at h3
            have he : i = start := by omega
            rw [hg, he]
            exact hp)
          (by simp only [pow_zero, mul_one]; omega)
        cases hseek : seek pred (L0 :: rest) 0 start with
        | none =>
          rw [hseek] at hsc
          have hall : ∀ i, start ≤ i → i < N →
              pred (getl ((L0 :: rest).getD 0 []) i) = false := hsc
          rw [leastMatch_all_false pred L0 L0.length start (by omega)
            (fun i h1 h2 => by
              have h3 := hall i h1 (by omega)
              rwa [hg] at h3)]
        | some pair =>
          obtain ⟨lvl, idx⟩ := pair
          rw [hseek] at hsc
          simp only [SeekSpec] at hsc
          obtain ⟨hlv, hix, hpnode, hst, hcl⟩ := hsc
          obtain ⟨hra, hrb, hrc, hrd⟩ := refineDown_correct tor hassoc N
            (L0 :: rest) hshape hgood pred hpred lvl idx hlv hix hpnode
          have hlenl : ((L0 :: rest).getD lvl []).length = N / 2 ^ lvl :=
            hshape.1 lvl hlv
          have hendle : (idx + 1) * 2 ^ lvl ≤ N :=
            subtree_end_le N lvl idx (by omega)
          rw [hg] at hrc hcl hrd
          rw [leastMatch_finds pred L0 L0.length start
            (refineDown pred (L0 :: rest) lvl idx) (by omega) (by omega)
            (by omega) hrc
            (fun i h1 h2 => by
              by_cases hi : i < idx * 2 ^ lvl
              · exact hcl i h1 (by omega) hi
              · exact hrd i (by omega) h2)]

/-- C5: on every tree reachable by new, set, or_mask and and_mask, every
existing slot at level l and index j holds the join of the leaves of its
aligned subtree, the leaf indices from j * 2^l up to
min ((j+1) * 2^l) N. -/
theorem trackup_C5 (tor tand : T → T → T) (N : Nat) (init : T)
    (levels : List (List T)) (l j : Nat)
    (hreach : Reachable tor tand N init levels)
    (hassoc : ∀ a b c, tor (tor a b) c = tor a (tor b c))
    (hcomm : ∀ a b, tor a b = tor b a)
    (hl : l < levels.length) (hj : j < (levels.getD l []).length) :
    getl (levels.getD l []) j =
      joinRange tor (getl (levels.getD 0 [])) (j * 2 ^ l)
        (min ((j + 1) * 2 ^ l) N) := by
  obtain ⟨hshape, hgood⟩ := reachable_inv tor tand hcomm N init levels hreach
  have hlen : (levels.getD l []).length = N / 2 ^ l := hshape.1 l hl
  have hendle : (j + 1) * 2 ^ l ≤ N := subtree_end_le N l j (by omega)
  rw [Nat.min_eq_left hendle,
    good_global tor hassoc N levels hshape hgood l j hl hj, joinRange]
  have he : (j + 1) * 2 ^ l - j * 2 ^ l - 1 = 2 ^ l - 1 := by
    have e : (j + 1) * 2 ^ l = j * 2 ^ l + 2 ^ l := by ring
    omega
  rw [he]

/-- C8: new (0, init) allocates no levels at all, and on that empty tree
find_next faults (the Rust code indexes levels[0] of the empty vector and
panics) for every predicate and start index, instead of returning None as
claimed. -/
theorem trackup_C8 :
    new (fun a b : Nat => a ||| b) 0 0 = ([] : List (List Nat)) ∧
    ∀ (pred : Nat → Bool) (start : Nat),
      find_next pred (new (fun a b : Nat => a ||| b) 0 0) start =
        Except.error () := by
  have h : new (fun a b : Nat => a ||| b) 0 0 = ([] : List (List Nat)) := by
    rw [new]
    simp
  refine ⟨h, fun pred start => ?_⟩
  rw [h]
  rfl

/-- C1 counterexample: on the or-tree over nat with leaves [0, 0, 1, 2]
and the predicate (· == 1), which does not distribute over the join
(1 ||| 2 = 3 fails it while leaf 2 alone passes), find_next returns none
from start 0 even though leaf 2 matches, so it does not return the
smallest matching index the original claim promises. -/
theorem trackup_C1_cex :
    find_next (fun x : Nat => x == 1)
      (set (fun a b : Nat => a ||| b)
        (set (fun a b : Nat => a ||| b)
          (new (fun a b : Nat => a ||| b) 4 0) 2 1) 3 2) 0 =
      Except.ok none ∧
    getl ((set (fun a b : Nat => a ||| b)
      (set (fun a b : Nat => a ||| b)
        (new (fun a b : Nat => a ||| b) 4 0) 2 1) 3 2).getD 0 []) 2 = 1 ∧
    leastMatch (fun x : Nat => x == 1)
      ((set (fun a b : Nat => a ||| b)
        (set (fun a b : Nat => a ||| b)
          (new (fun a b : Nat => a ||| b) 4 0) 2 1) 3 2).getD 0 []) 0 =
      some 2 := by
  refine ⟨?_, ?_, ?_⟩
  · simp [find_next, seek, spillScan, refineDown, set, merge_up,
      merge_up_from, new, getl, leastMatch]
  · simp [set, merge_up, merge_up_from, new, getl]
  · simp [set, merge_up, merge_up_from, new, getl, leastMatch]

/-- Witness for trackup_C1: the boolean or-tree of size 3 with leaf 2 set,
under the identity predicate, which distributes over or. -/
theorem trackup_C1_witness :
    (0 : Nat) < 3 ∧
    find_next (fun x : Bool => x)
      (set (fun a b : Bool => a || b)
        (new (fun a b : Bool => a || b) 3 false) 2 true) 0 =
      Except.ok (leastMatch (fun x : Bool => x)
        ((set (fun a b : Bool => a || b)
          (new (fun a b : Bool => a || b) 3 false) 2 true).getD 0 []) 0) :=
  ⟨by decide,
   trackup_C1 (fun a b : Bool => a || b) (fun a b : Bool => a && b) 3 false
     (set (fun a b : Bool => a || b)
       (new (fun a b : Bool => a || b) 3 false) 2 true)
     (fun x : Bool => x) 0
     (Reachable.set_step _ 2 true Reachable.base (by omega))
     (fun a b c => Bool.or_assoc a b c) (fun a b => Bool.or_comm a b)
     (fun a b => rfl) (by omega)⟩

/-- Witness for trackup_C5: on the same boolean tree, the level-1 slot 0
equals the join of leaves 0 and 1. -/
theorem trackup_C5_witness :
    1 < (set (fun a b : Bool => a || b)
      (new (fun a b : Bool => a || b) 3 false) 2 true).length ∧
    0 < ((set (fun a b : Bool => a || b)
      (new (fun a b : Bool => a || b) 3 false) 2 true).getD 1 []).length ∧
    getl ((set (fun a b : Bool => a || b)
      (new (fun a b : Bool => a || b) 3 false) 2 true).getD 1 []) 0 =
      joinRange (fun a b : Bool => a || b)
        (getl ((set (fun a b : Bool => a || b)
          (new (fun a b : Bool => a || b) 3 false) 2 true).getD 0 []))
        (0 * 2 ^ 1) (min ((0 + 1) * 2 ^ 1) 3) :=
  ⟨by simp [set, merge_up, merge_up_from, new, getl],
   by simp [set, merge_up, merge_up_from, new, getl],
   trackup_C5 (fun a b : Bool => a || b) (fun a b : Bool => a && b) 3 false
     (set (fun a b : Bool => a || b)
       (new (fun a b : Bool => a || b) 3 false) 2 true) 1 0
     (Reachable.set_step _ 2 true Reachable.base (by omega))
     (fun a b c => Bool.or_assoc a b c) (fun a b => Bool.or_comm a b)
     (by simp [set, merge_up, merge_up_from, new, getl])
     (by simp [set, merge_up, merge_up_from, new, getl])⟩

end AliasTree

/-- Decoding after encoding a big-endian u64 recovers the value and leaves
the remaining stream. -/
theorem readBeU64_beU64 (v : Nat) (rest : List Nat)
    (h : v < 18446744073709551616) :
    readBeU64 (beU64 v ++ rest) = some (v, rest) := by
  simp only [beU64, List.cons_append, List.nil_append, readBeU64,
    Option.some.injEq, Prod.mk.injEq]
  exact ⟨by omega, trivial⟩

/-! ## Claim C2: backup write gating -/

/-- C2: process_chunk records the chunk in the ledger first, and writes the
chunk to storage exactly when the returned diff passes the policy gate:
Incremental (construction fails without trusted checksums) writes iff
Replaced, Full with trust writes iff Touched or Replaced, Full without
trust always writes, Volatile never writes. -/
theorem trackup_C2 :
    backupWriteGates StoragePolicy.Incremental false = Except.error () ∧
    ∀ (policy : StoragePolicy) (trust : Bool) (g : WriteGates),
      backupWriteGates policy trust = Except.ok g →
      ∀ (σ : Type) (rec : σ → ChunkM → σ × ChecksumDiff) (s : σ)
        (w : List ChunkM) (c : ChunkM),
        (process_chunk rec ⟨s, w, g⟩ c).checksums = (rec s c).1 ∧
        (process_chunk rec ⟨s, w, g⟩ c).written =
          (if claimShouldWrite policy trust (rec s c).2 then w ++ [c] else w) := by
  constructor
  · rfl
  · intro policy trust g hg σ rec s w c
    refine ⟨rfl, ?_⟩
    have hgate : ∀ d, shouldWrite g d = claimShouldWrite policy trust d := by
      intro d
      cases policy <;> cases trust <;>
        simp only [backupWriteGates, if_neg, Bool.not_true, Bool.not_false,
          ite_true, ite_false, Except.ok.injEq, reduceCtorEq] at hg <;>
        (try cases hg) <;> cases d <;> rfl
    show (if shouldWrite g (rec s c).2 then w ++ [c] else w) = _
    rw [hgate]

/-- Witness for C2 at a concrete run: policy Full with trusted checksums
and a ledger diff of Touched leads to a storage write. -/
theorem trackup_C2_witness :
    (process_chunk (fun (s : Nat) _ => (s + 1, ChecksumDiff.Touched))
      ⟨0, [], ⟨false, true, true⟩⟩ ⟨0, [1, 2]⟩).checksums = 1 ∧
    (process_chunk (fun (s : Nat) _ => (s + 1, ChecksumDiff.Touched))
      ⟨0, [], ⟨false, true, true⟩⟩ ⟨0, [1, 2]⟩).written = [⟨0, [1, 2]⟩] := by
  have h := trackup_C2.2 StoragePolicy.Full true ⟨false, true, true⟩ rfl
    Nat (fun s _ => (s + 1, ChecksumDiff.Touched)) 0 [] ⟨0, [1, 2]⟩
  exact ⟨h.1, by simpa using h.2⟩

/-! ## Claim C7: shared index layer priority -/

/-- C7: over any sequence of replace calls the layer owning a chunk never
moves to a higher (lower-priority) layer number; a single replace by a
handle whose layer is above the current owner leaves the state unchanged;
replacing with the reserved offset U64_MAX panics; and a lookup miss is
only returned for the top layer, every other layer's miss panicking. -/
theorem trackup_C7 :
    (∀ (layer : Nat) (st : SharedIndexInternal) (cn off : Nat)
       (st' : SharedIndexInternal),
       SharedIndexHandle.replace layer st cn off = Except.ok st' →
       st.chunk_layers.getD cn 0 < layer → st' = st) ∧
    (∀ (st : SharedIndexInternal) (ops : List (Nat × Nat × Nat))
       (st' : SharedIndexInternal),
       runReplaces st ops = Except.ok st' →
       ∀ cn, st'.chunk_layers.getD cn 0 ≤ st.chunk_layers.getD cn 0) ∧
    (∀ (layer : Nat) (st : SharedIndexInternal) (cn : Nat),
       SharedIndexHandle.replace layer st cn U64_MAX = Except.error ()) ∧
    (∀ (layer : Nat) (st : SharedIndexInternal) (cn : Nat),
       SharedIndexHandle.lookup layer st cn = Except.ok none → layer = 0) ∧
    (∀ (layer : Nat) (st : SharedIndexInternal) (cn : Nat),
       layer ≠ 0 → st.chunk_layers.getD cn 0 ≠ layer →
       SharedIndexHandle.lookup layer st cn = Except.error ()) := by
  have hstep : ∀ (layer : Nat) (st : SharedIndexInternal) (cn off : Nat)
      (st' : SharedIndexInternal),
      SharedIndexHandle.replace layer st cn off = Except.ok st' →
      ∀ cn', st'.chunk_layers.getD cn' 0 ≤ st.chunk_layers.getD cn' 0 := by
    intro layer st cn off st' h cn'
    unfold SharedIndexHandle.replace at h
    split at h
    next => cases h
    next hoff =>
      have h2 := Except.ok.inj h
      rw [← h2]
      by_cases hle : layer ≤ st.chunk_layers.getD cn 0
      · rw [if_pos hle]
        show (st.chunk_layers.set cn layer).getD cn' 0 ≤ st.chunk_layers.getD cn' 0
        by_cases hcn : cn < st.chunk_layers.length
        · by_cases heq : cn = cn'
          · subst heq
            rw [getD_set_eq _ _ _ _ hcn]
            exact hle
          · rw [getD_set_ne _ _ _ _ _ heq]
        · rw [set_eq_of_le _ _ _ (Nat.le_of_not_lt hcn)]
      · rw [if_neg hle]
  refine ⟨?_, ?_, ?_, ?_, ?_⟩
  · intro layer st cn off st' h hlt
    unfold SharedIndexHandle.replace at h
    split at h
    next => cases h
    next hoff =>
      have h2 := Except.ok.inj h
      rw [← h2, if_neg (Nat.not_le_of_lt hlt)]
  · intro st ops
    induction ops generalizing st with
    | nil =>
      intro st' h cn
      have h2 := Except.ok.inj h
      rw [h2]
    | cons op rest ih =>
      intro st' h cn
      obtain ⟨layer, cnn, off⟩ := op
      unfold runReplaces at h
      cases hrep : SharedIndexHandle.replace layer st cnn off with
      | error e =>
        rw [hrep] at h
        have h' : (Except.error e : Except Unit SharedIndexInternal) =
            Except.ok st' := h
        cases h'
      | ok st1 =>
        rw [hrep] at h
        have h' : runReplaces st1 rest = Except.ok st' := h
        exact Nat.le_trans (ih st1 st' h' cn) (hstep layer st cnn off st1 hrep cn)
  · intro layer st cn
    unfold SharedIndexHandle.replace
    rw [if_pos rfl]
  · intro layer st cn h
    unfold SharedIndexHandle.lookup at h
    split at h
    next => cases h
    next h1 =>
      split at h
      next => cases h
      next h2 => exact not_ne_iff.mp h2
  · intro layer st cn hl hne
    unfold SharedIndexHandle.lookup
    rw [if_neg (fun h => hne h), if_pos hl]

/-- Witness for C7 at concrete states: a layer-2 handle cannot displace a
layer-1 owner, a run of replaces only lowers owners, the reserved offset
panics, and a layer-1 miss panics. -/
theorem trackup_C7_witness :
    (SharedIndexHandle.replace 2 ⟨2, 0, [1], [7]⟩ 0 9 = Except.ok ⟨2, 0, [1], [7]⟩ →
      (0 : Nat) < 2 → (⟨2, 0, [1], [7]⟩ : SharedIndexInternal) = ⟨2, 0, [1], [7]⟩) ∧
    ((⟨0, 0, [1, 0], [7, 8]⟩ : SharedIndexInternal).chunk_layers.getD 0 0 ≤
      (SharedIndex.new 2).chunk_layers.getD 0 0) ∧
    SharedIndexHandle.replace 0 (SharedIndex.new 2) 0 U64_MAX = Except.error () ∧
    SharedIndexHandle.lookup 1 (SharedIndex.new 2) 0 = Except.error () := by
  refine ⟨?_, ?_, ?_, ?_⟩
  · intro h _
    exact trackup_C7.1 2 ⟨2, 0, [1], [7]⟩ 0 9 ⟨2, 0, [1], [7]⟩ h (by decide)
  · have hrun : runReplaces (SharedIndex.new 2) [(1, 0, 7), (0, 1, 8)] =
        Except.ok ⟨0, 0, [1, 0], [7, 8]⟩ := rfl
    have h := trackup_C7.2.1 (SharedIndex.new 2) [(1, 0, 7), (0, 1, 8)]
      ⟨0, 0, [1, 0], [7, 8]⟩ hrun 0
    exact h
  · exact trackup_C7.2.2.1 0 (SharedIndex.new 2) 0
  · exact trackup_C7.2.2.2.2 1 (SharedIndex.new 2) 0 (by decide) (by decide)

/-! ## Claim C10: floor versus ceiling chunk counts -/

/-- C10: for sizes that are not a multiple of the chunk size, Backup::new
sizes the ledger with one slot fewer than the rounded-up chunk count used
by SparseStorage::create_file and the copier, and record_chunk on the
final partial chunk (chunk number size / chunk_size) indexes past the end
of the sources and checksums arrays. -/
theorem trackup_C10 :
    ∀ (size chunk_size : Nat), 0 < chunk_size → size % chunk_size ≠ 0 →
      sparseChunkCount size chunk_size = backupChunkCount size chunk_size + 1 ∧
      copierChunkCount size chunk_size = sparseChunkCount size chunk_size ∧
      ∀ (digest : List Nat → List Nat) (k : Nat) (data : List Nat),
        SparseChecksums.record_chunk digest
          (SparseChecksums.new k chunk_size (backupChunkCount size chunk_size))
          ⟨backupChunkCount size chunk_size * chunk_size, data⟩ =
        Except.error () := by
  intro size cs hcs hmod
  have hsplit : cs * (size / cs) + size % cs = size := Nat.div_add_mod size cs
  have hmodlt : size % cs < cs := Nat.mod_lt _ hcs
  have hmodpos : 0 < size % cs := Nat.pos_of_ne_zero hmod
  have hceil : sparseChunkCount size cs = backupChunkCount size cs + 1 := by
    unfold sparseChunkCount backupChunkCount
    have h1 : size + cs - 1 = cs * (size / cs + 1) + (size % cs - 1) := by
      have h2 : cs * (size / cs + 1) = cs * (size / cs) + cs := by ring
      omega
    rw [h1, Nat.mul_add_div hcs,
      Nat.div_eq_of_lt (show size % cs - 1 < cs by omega)]
  refine ⟨hceil, ?_, ?_⟩
  · unfold copierChunkCount
    rw [if_pos hmod, hceil]
    rfl
  · intro digest k data
    have hq : backupChunkCount size cs * cs / cs = backupChunkCount size cs :=
      Nat.mul_div_cancel _ hcs
    simp only [SparseChecksums.record_chunk, SparseChecksums.new,
      List.length_replicate]
    rw [hq, if_neg (Nat.lt_irrefl _)]

/-- Witness for C10 at size 3 and chunk size 2: the ledger gets one slot,
the storage and copier count two chunks, and recording the final partial
chunk at offset 2 hits the out-of-bounds panic. -/
theorem trackup_C10_witness :
    sparseChunkCount 3 2 = backupChunkCount 3 2 + 1 ∧
    copierChunkCount 3 2 = sparseChunkCount 3 2 ∧
    SparseChecksums.record_chunk (fun d => d) (SparseChecksums.new 1 2 1)
      ⟨2, [9]⟩ = Except.error () := by
  have h := trackup_C10 3 2 (by decide) (by decide)
  exact ⟨h.1, h.2.1, h.2.2 (fun d => d) 1 [9]⟩

/-! ## Claim C3: the leading u64 of a numbered_chunk record -/

/-- Counterexample to C3 as stated: for chunk size 2 and the chunk at
offset 2, the record written by SparseStorage::write_chunk begins with the
big-endian u64 value 2 (the byte offset), not the chunk number
2 / 2 = 1. -/
theorem trackup_C3_cex :
    SparseStorage.write_chunk_record 4 2 ⟨2, [5, 6]⟩ =
      Except.ok (beU64 2 ++ [5, 6]) ∧
    readBeU64 (beU64 2 ++ [5, 6]) = some (2, [5, 6]) ∧
    (2 : Nat) / 2 = 1 ∧ (2 : Nat) ≠ 1 := by
  refine ⟨rfl, rfl, rfl, by decide⟩

/-- C3 amended: every record written by SparseStorage::write_chunk begins
with the chunk's byte offset (equal to chunk number times chunk size)
encoded as a big-endian u64, immediately followed by the chunk bytes, and
the sequential reader SparseStorage::read_chunk decodes that leading u64
as the byte offset, reconstructing the chunk. -/
theorem trackup_C3 (size chunk_size : Nat) (c : ChunkM) (rec extra : List Nat)
    (hw : SparseStorage.write_chunk_record size chunk_size c = Except.ok rec)
    (hoff : c.offset < U64_MAX) :
    rec = beU64 c.offset ++ c.data ∧
    readBeU64 (rec ++ extra) = some (c.offset, c.data ++ extra) ∧
    c.offset = c.offset / chunk_size * chunk_size ∧
    SparseStorage.read_chunk size chunk_size (rec ++ extra) =
      Except.ok (some c, extra) := by
  have hofflt : c.offset < 18446744073709551616 := by
    have : U64_MAX < 18446744073709551616 := by decide
    omega
  unfold SparseStorage.write_chunk_record at hw
  split at hw
  next => cases hw
  next hlen =>
    have hlen' : c.data.length = chunk_size := not_ne_iff.mp hlen
    cases hcn : c.chunk_number chunk_size size with
    | error e =>
      rw [hcn] at hw
      cases hw
    | ok n =>
      rw [hcn] at hw
      have hrec : Except.ok (beU64 c.offset ++ c.data ++
          List.replicate
            (if c.data.length < chunk_size then chunk_size - c.data.length
             else 0) 0) = Except.ok rec := hw
      have hrec' := Except.ok.inj hrec
      have hpad : ¬ c.data.length < chunk_size := by omega
      rw [if_neg hpad, List.replicate_zero, List.append_nil] at hrec'
      unfold ChunkM.chunk_number at hcn
      split at hcn
      next => cases hcn
      next hmod =>
        have hmod' : c.offset % chunk_size = 0 := not_ne_iff.mp hmod
        split at hcn
        next => cases hcn
        next hsz =>
          have hsz' : c.offset < size := Nat.lt_of_not_le hsz
          split at hcn
          next => cases hcn
          next hfit =>
            have hfit' : c.offset + c.data.length ≤ size := Nat.le_of_not_lt hfit
            subst hrec'
            refine ⟨rfl, ?_, ?_, ?_⟩
            · rw [List.append_assoc]
              exact readBeU64_beU64 _ _ hofflt
            · rw [Nat.div_mul_cancel (Nat.dvd_of_mod_eq_zero hmod')]
            · have hne1 : ¬ c.offset = U64_MAX := by omega
              have hne2 : ¬ size ≤ c.offset := by omega
              have havail : ¬ size - c.offset < chunk_size := by omega
              have hlen2 : ¬ (c.data ++ extra).length < chunk_size := by
                rw [List.length_append, hlen']; omega
              simp only [SparseStorage.read_chunk, List.append_assoc,
                readBeU64_beU64 _ _ hofflt, if_neg hne1, if_neg hne2, hmod',
                ne_eq, not_true_eq_false, not_false_eq_true, ite_false,
                ite_true, if_neg havail, if_neg hlen2]
              rw [← hlen', List.take_left, List.drop_left]

/-- Witness for C3 amended at size 4, chunk size 2, and the chunk holding
bytes 5 and 6 at offset 2. -/
theorem trackup_C3_witness :
    beU64 2 ++ [5, 6] = beU64 2 ++ [5, 6] ∧
    readBeU64 ((beU64 2 ++ [5, 6]) ++ []) = some (2, [5, 6] ++ []) ∧
    (2 : Nat) = 2 / 2 * 2 ∧
    SparseStorage.read_chunk 4 2 ((beU64 2 ++ [5, 6]) ++ []) =
      Except.ok (some ⟨2, [5, 6]⟩, []) := by
  have h := trackup_C3 4 2 ⟨2, [5, 6]⟩ (beU64 2 ++ [5, 6]) [] (by rfl) (by decide)
  exact ⟨rfl, h.2.1, h.2.2.1, h.2.2.2⟩

/-! ## Claim C4: the final undersized chunk -/

/-- C4: contrary to the format documentation at the top of
storage/sparse.rs, writing the logically-last undersized chunk does not
pad it: SparseStorage::write_chunk panics on any chunk whose data length
differs from the chunk size (the guard at line 350), so for size 3 and
chunk size 2 the final one-byte chunk at offset 2 fails.  The read side
does behave as claimed: a padded record for that chunk reads back
truncated to size - offset = 1 byte. -/
theorem trackup_C4 :
    SparseStorage.write_chunk_record 3 2 ⟨2, [9]⟩ = Except.error () ∧
    SparseStorage.read_chunk 3 2 (beU64 2 ++ [9, 0]) =
      Except.ok (some ⟨2, [9]⟩, []) := by
  exact ⟨rfl, rfl⟩

/-! ## Claim C6: milestone persistence -/

/-- Counterexample to C6 as stated: milestone on a state whose only target
is the path state.yaml persists by creating and writing that file
directly; the trace contains no .new sibling, no fsync and no rename, so
the persistence is not the claimed atomic write-fsync-rename pattern. -/
theorem trackup_C6_cex :
    (State.milestone 5 ⟨some "state.yaml", none, none, 0, Health.Setup, ""⟩
        Health.Finishing "copying").2 =
      [FsOp.create "state.yaml", FsOp.writeYaml "state.yaml"] ∧
    (State.milestone 5 ⟨some "state.yaml", none, none, 0, Health.Setup, ""⟩
        Health.Finishing "copying").2 ≠ atomicPersistOps "state.yaml" ∧
    ∀ op ∈ (State.milestone 5 ⟨some "state.yaml", none, none, 0, Health.Setup, ""⟩
        Health.Finishing "copying").2,
      opTargetsDirect "state.yaml" op = true := by
  refine ⟨rfl, by decide, by decide⟩

/-- C6 amended: milestone(health, desc) updates the health, description
and updated fields and persists the state by directly re-creating and
rewriting each target file (the state path, the last-success path when
health is Success, and the permanent path); no temporary .new sibling,
fsync or rename is involved, so a failed write can leave a target file
truncated. -/
theorem trackup_C6 (now : Nat) (st : StateM) (health : Health)
    (description : String) :
    (State.milestone now st health description).1.health = health ∧
    (State.milestone now st health description).1.description = description ∧
    (State.milestone now st health description).1.updated = now ∧
    (State.milestone now st health description).2 =
      (commitPaths (State.milestone now st health description).1).flatMap
        (fun p => [FsOp.create p, FsOp.writeYaml p]) ∧
    ∀ op ∈ (State.milestone now st health description).2,
      ∃ p ∈ commitPaths (State.milestone now st health description).1,
        op = FsOp.create p ∨ op = FsOp.writeYaml p := by
  refine ⟨rfl, rfl, rfl, rfl, ?_⟩
  intro op hop
  rw [show (State.milestone now st health description).2 =
      (commitPaths (State.milestone now st health description).1).flatMap
        (fun p => [FsOp.create p, FsOp.writeYaml p]) from rfl] at hop
  rw [List.mem_flatMap] at hop
  obtain ⟨p, hp, hmem⟩ := hop
  refine ⟨p, hp, ?_⟩
  simp only [List.mem_cons, List.not_mem_nil, or_false] at hmem
  exact hmem

/-- Witness for C6 amended at a concrete milestone call. -/
theorem trackup_C6_witness :
    (State.milestone 7 ⟨some "s", some "ok", some "p", 0, Health.Setup, ""⟩
        Health.Success "done").1.health = Health.Success ∧
    (State.milestone 7 ⟨some "s", some "ok", some "p", 0, Health.Setup, ""⟩
        Health.Success "done").2 =
      [FsOp.create "s", FsOp.writeYaml "s", FsOp.create "ok",
       FsOp.writeYaml "ok", FsOp.create "p", FsOp.writeYaml "p"] := by
  have h := trackup_C6 7 ⟨some "s", some "ok", some "p", 0, Health.Setup, ""⟩
    Health.Success "done"
  exact ⟨h.1, by rw [h.2.2.2.1]; rfl⟩

/-! ## Claim C9: trace event dispatch -/

/-- C9: for an event passing the filter (write category, QUEUE action,
positive length), and any configured device position i, the pair (i, c) is
enqueued exactly when device i shares the event device, its sector range
contains the event sector, and c lies in the inclusive chunk range from
first_byte / chunk_size to last_byte / chunk_size with
first_byte = (sector - start_sector) * 512 and
last_byte = first_byte + bytes - 1.  Matching does not stop at the first
device, and no condition excludes events extending beyond the device
span. -/
theorem trackup_C9 (devices : List DeviceJob) (e : BlkEventM) (i : Nat)
    (d : DeviceJob) (c : Nat)
    (hwrite : e.action >>> 16 &&& 2 ≠ 0)
    (haction : e.action &&& 65535 = 1)
    (hbytes : 0 < e.bytes)
    (hi : i < devices.length)
    (hd : devices.getD i ⟨0, 0, 0, 0, 0⟩ = d)
    (hnov : (e.sector - d.start_sector) * 512 + e.bytes ≤ 2 ^ 64) :
    ((i, c) ∈ consume_event devices e ↔
      (d.base_event_dev = e.device ∧ d.start_sector ≤ e.sector ∧
       e.sector < d.end_sector ∧
       (e.sector - d.start_sector) * 512 / d.chunk_size ≤ c ∧
       c ≤ ((e.sector - d.start_sector) * 512 + e.bytes - 1) / d.chunk_size)) := by
  have hm1 : (e.sector - d.start_sector) * 512 % 2 ^ 64 =
      (e.sector - d.start_sector) * 512 := Nat.mod_eq_of_lt (by omega)
  have hm2 : ((e.sector - d.start_sector) * 512 + e.bytes - 1) % 2 ^ 64 =
      (e.sector - d.start_sector) * 512 + e.bytes - 1 :=
    Nat.mod_eq_of_lt (by omega)
  unfold consume_event
  rw [if_neg hwrite, if_neg (by rw [haction]; exact fun h => h rfl),
    if_neg (by omega)]
  rw [List.mem_flatten]
  constructor
  · rintro ⟨l, hl, hmem⟩
    rw [List.mem_map] at hl
    obtain ⟨j, hj, hlj⟩ := hl
    rw [List.mem_range] at hj
    subst hlj
    unfold eventMarksFor at hmem
    split at hmem
    next hcond =>
      rw [List.mem_map] at hmem
      obtain ⟨k, hk, hpk⟩ := hmem
      rw [List.mem_range] at hk
      have hji : j = i := ((Prod.mk.injEq _ _ _ _).mp hpk).1
      subst hji
      rw [hd] at hcond hk hpk
      have hc : c = (e.sector - d.start_sector) * 512 % 2 ^ 64 / d.chunk_size + k :=
        ((Prod.mk.injEq _ _ _ _).mp hpk).2.symm
      rw [hm1] at hc hk
      rw [hm2] at hk
      exact ⟨hcond.1, hcond.2.1, hcond.2.2, by omega, by omega⟩
    next => cases hmem
  · rintro ⟨h1, h2, h3, h4, h5⟩
    refine ⟨eventMarksFor i d e, ?_, ?_⟩
    · rw [List.mem_map]
      exact ⟨i, List.mem_range.mpr hi, by rw [hd]⟩
    · unfold eventMarksFor
      rw [if_pos ⟨h1, h2, h3⟩, List.mem_map]
      refine ⟨c - (e.sector - d.start_sector) * 512 % 2 ^ 64 / d.chunk_size,
        ?_, ?_⟩
      · rw [List.mem_range, hm1, hm2]
        have hfl : (e.sector - d.start_sector) * 512 / d.chunk_size ≤
            ((e.sector - d.start_sector) * 512 + e.bytes - 1) / d.chunk_size :=
          Nat.div_le_div_right (by omega)
        omega
      · rw [hm1]
        have : (e.sector - d.start_sector) * 512 / d.chunk_size ≤ c := h4
        rw [Nat.add_sub_cancel' this]

/-- Witness for C9: a whole disk and one of its partitions are both
configured; one write event at sector 12 marks chunk 6 on the disk job and
chunk 1 on the partition job. -/
theorem trackup_C9_witness :
    ((0, 6) ∈ consume_event
      [⟨5, 0, 100, 100, 1024⟩, ⟨5, 10, 60, 50, 1024⟩]
      ⟨12, 1024, 131073, 5⟩) ∧
    ((1, 1) ∈ consume_event
      [⟨5, 0, 100, 100, 1024⟩, ⟨5, 10, 60, 50, 1024⟩]
      ⟨12, 1024, 131073, 5⟩) := by
  constructor
  · exact (trackup_C9 [⟨5, 0, 100, 100, 1024⟩, ⟨5, 10, 60, 50, 1024⟩]
      ⟨12, 1024, 131073, 5⟩ 0 ⟨5, 0, 100, 100, 1024⟩ 6
      (by decide) (by decide) (by decide) (by decide) rfl (by decide)).mpr
      (by refine ⟨rfl, by decide, by decide, by decide, by decide⟩)
  · exact (trackup_C9 [⟨5, 0, 100, 100, 1024⟩, ⟨5, 10, 60, 50, 1024⟩]
      ⟨12, 1024, 131073, 5⟩ 1 ⟨5, 10, 60, 50, 1024⟩ 1
      (by decide) (by decide) (by decide) (by decide) rfl (by decide)).mpr
      (by refine ⟨rfl, by decide, by decide, by decide, by decide⟩)

end Trackup
